import Mathlib

/-!
Verification of the open-hypergraph composition algebra and the optic
functor lifting.  The core code (`open_hypergraph.py`, `functor/optic.py`)
is embedded directly; the collaborator layer (`finite_function.py`,
`hypergraph.py`) is not part of the core sources and is modelled from the
specification's interface contract (sections 3 and 6 of the spec).
-/

namespace OpenHG

/-- The error taxonomy of the specification (section 7). -/
inductive Err where
  | typeMismatch
  | dtypeMismatch
  | arityMismatch
  | lengthMismatch
  | invalidArgument
  | structuralMismatch
deriving DecidableEq

/-- Modelled from the spec: the default integer-width tag `DTYPE` of
`finite_function.py` (missing from src); widths are abstract tags here. -/
def DTYPE : Nat := 0

/-- Modelled from the spec: a FiniteFunction `f : n → m` is an array of
length `n` of indices in `[0, m)` plus the shared integer-width tag
`dtype` (`finite_function.py` is missing from src). -/
structure FiniteFunction where
  table : List Nat
  target : Nat
  dtype : Nat
deriving DecidableEq

namespace FiniteFunction

/-- The domain size of a finite function is the length of its table. -/
def source (f : FiniteFunction) : Nat := f.table.length

/-- All table entries are in range (spec section 3 invariant). -/
def Bounded (f : FiniteFunction) : Prop := ∀ v ∈ f.table, v < f.target

instance (f : FiniteFunction) : Decidable f.Bounded := by
  unfold Bounded; infer_instance

/-- Modelled from the spec: `identity(n)`. -/
def identity (n d : Nat) : FiniteFunction := ⟨List.range n, n, d⟩

/-- Modelled from the spec: `initial(n)`, the unique map `0 → n`. -/
def initial (n d : Nat) : FiniteFunction := ⟨[], n, d⟩

/-- Modelled from the spec: `to_initial()`, the initial map sharing
target and dtype with `f`. -/
def to_initial (f : FiniteFunction) : FiniteFunction := ⟨[], f.target, f.dtype⟩

/-- The underlying (unchecked) composite `f >> g`. -/
def compT (f g : FiniteFunction) : FiniteFunction :=
  ⟨f.table.map (fun i => g.table.getD i 0), g.target, f.dtype⟩

/-- Modelled from the spec: composition `f >> g`; combining finite
functions with distinct dtypes, or with `f.target != g.source`, is an
error. -/
def comp (f g : FiniteFunction) : Except Err FiniteFunction :=
  if f.dtype ≠ g.dtype then .error .dtypeMismatch
  else if f.target ≠ g.source then .error .typeMismatch
  else .ok (compT f g)

/-- The underlying (unchecked) tensor `f @ g`. -/
def tensorT (f g : FiniteFunction) : FiniteFunction :=
  ⟨f.table ++ g.table.map (fun v => f.target + v), f.target + g.target, f.dtype⟩

/-- Modelled from the spec: tensor (disjoint sum) of finite functions;
mixing dtypes is an error. -/
def tensor (f g : FiniteFunction) : Except Err FiniteFunction :=
  if f.dtype ≠ g.dtype then .error .dtypeMismatch
  else .ok (tensorT f g)

/-- The underlying (unchecked) coproduct (copairing) `f + g`. -/
def coprodT (f g : FiniteFunction) : FiniteFunction :=
  ⟨f.table ++ g.table, f.target, f.dtype⟩

/-- Modelled from the spec: coproduct copairing `f + g`; both maps must
share target and dtype, else this is an error. -/
def coprod (f g : FiniteFunction) : Except Err FiniteFunction :=
  if f.dtype ≠ g.dtype then .error .dtypeMismatch
  else if f.target ≠ g.target then .error .typeMismatch
  else .ok (coprodT f g)

/-- Modelled from the spec: `inj0(a, b)`, the left block injection. -/
def inj0 (a b d : Nat) : FiniteFunction := ⟨List.range a, a + b, d⟩

/-- Modelled from the spec: `inj1(a, b)`, the right block injection. -/
def inj1 (a b d : Nat) : FiniteFunction :=
  ⟨(List.range b).map (fun v => a + v), a + b, d⟩

/-- Modelled from the spec: `f.inject0(b)`, postcomposition of `f` with
the left injection into `f.target + b`. -/
def inject0 (f : FiniteFunction) (b : Nat) : FiniteFunction :=
  ⟨f.table, f.target + b, f.dtype⟩

/-- Modelled from the spec: `f.inject1(a)`, postcomposition of `f` with
the right injection into `a + f.target`. -/
def inject1 (f : FiniteFunction) (a : Nat) : FiniteFunction :=
  ⟨f.table.map (fun v => a + v), a + f.target, f.dtype⟩

/-- Modelled from the spec: the block-swap permutation
`twist(a, b) : a + b → b + a`. -/
def twist (a b d : Nat) : FiniteFunction :=
  ⟨(List.range (a + b)).map (fun i => if i < a then b + i else i - a), b + a, d⟩

/-- Modelled from the spec: the `transpose(a, b)` permutation on `a * b`
indices, sending `i` to `(i % a) * b + i / a`; `transpose(2, n)` pairs
up the two halves of a `2 * n` block list. -/
def transpose (a b d : Nat) : FiniteFunction :=
  ⟨(List.range (a * b)).map (fun i => (i % a) * b + i / a), b * a, d⟩

/-- One union step of the coequalizer computation: merge the classes of
the two endpoints of one pair, replacing the larger class label by the
smaller one everywhere. -/
def mergeStep (labels : List Nat) (p : Nat × Nat) : List Nat :=
  labels.map (fun l =>
    if l = max (labels.getD p.1 0) (labels.getD p.2 0)
    then min (labels.getD p.1 0) (labels.getD p.2 0) else l)

/-- Canonical class labels on `W` vertices after merging all pairs. -/
def mergeLabels (W : Nat) (ps : List (Nat × Nat)) : List Nat :=
  ps.foldl mergeStep (List.range W)

/-- The class representatives (the fixed points of the label table), in
increasing order. -/
def repsOf (labels : List Nat) : List Nat :=
  (List.range labels.length).filter (fun l => labels.getD l 0 == l)

/-- The class labels of the equivalence on `f.target` generated by
`f(i) ~ g(i)`. -/
def coeqLabels (f g : FiniteFunction) : List Nat :=
  mergeLabels f.target (f.table.zip g.table)

/-- The representatives of the classes of `coeqLabels`. -/
def coeqReps (f g : FiniteFunction) : List Nat := repsOf (coeqLabels f g)

/-- The underlying (unchecked) coequalizer of the parallel pair `f, g`:
the canonical map from `f.target` onto the classes of the equivalence
generated by `f(i) ~ g(i)`. -/
def coeqT (f g : FiniteFunction) : FiniteFunction :=
  ⟨(coeqLabels f g).map (fun l => (coeqReps f g).indexOf l),
   (coeqReps f g).length, f.dtype⟩

/-- Modelled from the spec: `coequalizer(f, g)`, the coarsest quotient of
the common target identifying the images of the parallel pair; the two
maps must be parallel, share dtype and be in range. -/
def coequalizer (f g : FiniteFunction) : Except Err FiniteFunction :=
  if f.dtype ≠ g.dtype then .error .dtypeMismatch
  else if f.source ≠ g.source ∨ f.target ≠ g.target then .error .typeMismatch
  else if f.Bounded ∧ g.Bounded then .ok (coeqT f g)
  else .error .invalidArgument

/-- Modelled from the spec: the universal map out of a coequalizer `q`,
sending each class to the label `w` gives its first representative. -/
def universalT (q w : FiniteFunction) : FiniteFunction :=
  ⟨(List.range q.target).map (fun c => w.table.getD (q.table.indexOf c) 0),
   w.target, w.dtype⟩

end FiniteFunction

/-- Modelled from the spec: an IndexedCoproduct is a length-`N` vector of
block sizes plus one concatenated `values` finite function (spec
section 3); `finite_function.py` is missing from src. -/
structure IndexedCoproduct where
  sources : List Nat
  values : FiniteFunction
deriving DecidableEq

/-- Split a value table into consecutive blocks of the given sizes. -/
def blocksOf : List Nat → List Nat → List (List Nat)
  | [], _ => []
  | n :: ns, vs => vs.take n :: blocksOf ns (vs.drop n)

/-- Modelled from the spec: `injections(sizes, a)`, the copairing of the
block injections selected by `a`: its table lists, for each `k` in `a`'s
table, the index range of block `k`. -/
def injectionsL (sizes : List Nat) (a : FiniteFunction) : FiniteFunction :=
  ⟨(a.table.map (fun k => List.range' ((sizes.take k).sum) (sizes.getD k 0))).flatten,
   sizes.sum, a.dtype⟩

namespace IndexedCoproduct

/-- `len`: the number of blocks. -/
def len (c : IndexedCoproduct) : Nat := c.sources.length

/-- The dtype of an indexed coproduct is that of its values. -/
def dtype (c : IndexedCoproduct) : Nat := c.values.dtype

/-- Sizes sum to the values domain (spec section 3 invariant). -/
def Wf (c : IndexedCoproduct) : Prop := c.sources.sum = c.values.source

instance (c : IndexedCoproduct) : Decidable c.Wf := by
  unfold Wf; infer_instance

/-- The list of per-block value tables. -/
def blocks (c : IndexedCoproduct) : List (List Nat) :=
  blocksOf c.sources c.values.table

/-- Modelled from the spec: block-wise concatenation `A + B`. -/
def concat (A B : IndexedCoproduct) : Except Err IndexedCoproduct := do
  let v ← FiniteFunction.coprod A.values B.values
  .ok ⟨A.sources ++ B.sources, v⟩

/-- Modelled from the spec: tensor `A @ B` (blocks concatenated, values
tensored). -/
def tensorIC (A B : IndexedCoproduct) : Except Err IndexedCoproduct := do
  let v ← FiniteFunction.tensor A.values B.values
  .ok ⟨A.sources ++ B.sources, v⟩

/-- Modelled from the spec: `map_indexes(x)`, reindexing the blocks of
`c` along `x` (block `j` of the result is block `x(j)` of `c`). -/
def map_indexes (c : IndexedCoproduct) (x : FiniteFunction) : IndexedCoproduct :=
  ⟨x.table.map (fun k => c.sources.getD k 0),
   FiniteFunction.compT (injectionsL c.sources x) c.values⟩

end IndexedCoproduct

/-- Modelled from the spec: a Hypergraph has wire labels `w : W → Σ₀`,
hyperedge labels `x : X → Σ₁`, and source/target IndexedCoproducts
giving each hyperedge's ordered wire tuples (`hypergraph.py` is missing
from src). -/
structure Hypergraph where
  s : IndexedCoproduct
  t : IndexedCoproduct
  w : FiniteFunction
  x : FiniteFunction
deriving DecidableEq

namespace Hypergraph

/-- The number of wires. -/
def W (H : Hypergraph) : Nat := H.w.source

/-- The dtype of a hypergraph is that of its wire labelling. -/
def dtype (H : Hypergraph) : Nat := H.w.dtype

/-- Modelled from the spec: `discrete(w, x)`, the hypergraph with wires
`w` and no hyperedges. -/
def discrete (w x : FiniteFunction) (d : Nat) : Hypergraph :=
  ⟨⟨[], ⟨[], w.source, d⟩⟩, ⟨[], ⟨[], w.source, d⟩⟩, w, x⟩

/-- Modelled from the spec: disjoint union `G + H` of hypergraphs: wire
and edge sets juxtaposed, labels copaired, endpoint tuples tensored. -/
def add (G H : Hypergraph) : Except Err Hypergraph := do
  let s ← IndexedCoproduct.tensorIC G.s H.s
  let t ← IndexedCoproduct.tensorIC G.t H.t
  let w ← FiniteFunction.coprod G.w H.w
  let x ← FiniteFunction.coprod G.x H.x
  .ok ⟨s, t, w, x⟩

/-- The underlying (unchecked) disjoint union of hypergraphs, the value
`add` returns when its checks pass. -/
def addT (G H : Hypergraph) : Hypergraph :=
  ⟨⟨G.s.sources ++ H.s.sources, FiniteFunction.tensorT G.s.values H.s.values⟩,
   ⟨G.t.sources ++ H.t.sources, FiniteFunction.tensorT G.t.values H.t.values⟩,
   FiniteFunction.coprodT G.w H.w, FiniteFunction.coprodT G.x H.x⟩

/-- Internal well-formedness of a hypergraph (spec section 3). -/
def Wf (H : Hypergraph) : Prop :=
  H.s.Wf ∧ H.t.Wf ∧
  H.s.values.target = H.W ∧ H.t.values.target = H.W ∧
  H.s.values.Bounded ∧ H.t.values.Bounded ∧ H.w.Bounded ∧ H.x.Bounded ∧
  H.s.len = H.x.source ∧ H.t.len = H.x.source ∧
  H.s.values.dtype = H.dtype ∧ H.t.values.dtype = H.dtype ∧ H.x.dtype = H.dtype

instance (H : Hypergraph) : Decidable H.Wf := by
  unfold Wf; infer_instance

/-- Modelled from the spec: `coequalize_vertices(q)`: quotient the
hyperedge endpoint maps by `q` and push the wire labelling forward along
`q` via the universal map (merged wires must carry equal labels). -/
def coequalize_vertices (H : Hypergraph) (q : FiniteFunction) : Except Err Hypergraph :=
  if H.W ≠ q.source then .error .typeMismatch
  else if FiniteFunction.compT q (FiniteFunction.universalT q H.w) ≠ H.w then
    .error .structuralMismatch
  else do
    let sv ← FiniteFunction.comp H.s.values q
    let tv ← FiniteFunction.comp H.t.values q
    .ok ⟨⟨H.s.sources, sv⟩, ⟨H.t.sources, tv⟩,
         FiniteFunction.universalT q H.w, H.x⟩

end Hypergraph

/-- An OpenHypergraph is a cospan in Hypergraph whose feet are discrete:
a hypergraph `H` plus interface maps `s, t` into its wires
(`open_hypergraph.py`). -/
structure OpenHypergraph where
  s : FiniteFunction
  t : FiniteFunction
  H : Hypergraph
deriving DecidableEq

namespace OpenHypergraph

/-- `OpenHypergraph.dtype`. -/
def dtype (f : OpenHypergraph) : Nat := f.s.dtype

/-- The dataclass constructor: `__post_init__` checks that the dtypes of
all components agree, else raises. -/
def mk? (s t : FiniteFunction) (H : Hypergraph) : Except Err OpenHypergraph :=
  if s.dtype = t.dtype ∧ t.dtype = H.dtype then .ok ⟨s, t, H⟩
  else .error .dtypeMismatch

/-- `OpenHypergraph.source`: the input interface type sequence `s >> H.w`. -/
def source (f : OpenHypergraph) : FiniteFunction :=
  FiniteFunction.compT f.s f.H.w

/-- `OpenHypergraph.target`: the output interface type sequence `t >> H.w`. -/
def target (f : OpenHypergraph) : FiniteFunction :=
  FiniteFunction.compT f.t f.H.w

/-- Well-formedness of an open hypergraph: interfaces land in the wires,
dtypes agree (the `__post_init__` check) and the hypergraph is well
formed. -/
def Wf (f : OpenHypergraph) : Prop :=
  f.s.target = f.H.W ∧ f.t.target = f.H.W ∧ f.s.Bounded ∧ f.t.Bounded ∧
  f.s.dtype = f.t.dtype ∧ f.t.dtype = f.H.dtype ∧ f.H.Wf

instance (f : OpenHypergraph) : Decidable f.Wf := by
  unfold Wf; infer_instance

/-- `OpenHypergraph.identity(w, x, dtype)`: raises unless `x.source == 0`,
else the identity cospan over the discrete hypergraph on `w`. -/
def identity (w x : FiniteFunction) (d : Nat) : Except Err OpenHypergraph :=
  if x.source ≠ 0 then .error .invalidArgument
  else mk? (FiniteFunction.identity w.source d) (FiniteFunction.identity w.source d)
        (Hypergraph.discrete w x d)

/-- `OpenHypergraph.tensor(f, g)`: juxtaposed interfaces over the
disjoint union of the hypergraphs. -/
def tensor (f g : OpenHypergraph) : Except Err OpenHypergraph := do
  let s ← FiniteFunction.tensor f.s g.s
  let t ← FiniteFunction.tensor f.t g.t
  let H ← Hypergraph.add f.H g.H
  mk? s t H

/-- The underlying (unchecked) tensor of open hypergraphs, the value
`tensor` returns when its checks pass. -/
def tensorU (f g : OpenHypergraph) : OpenHypergraph :=
  ⟨FiniteFunction.tensorT f.s g.s, FiniteFunction.tensorT f.t g.t,
   Hypergraph.addT f.H g.H⟩

/-- `OpenHypergraph.compose(f, g)`: assert `f.target == g.source`, tensor,
coequalize `f.t` with `g.s` across the disjoint union, and quotient. -/
def compose (f g : OpenHypergraph) : Except Err OpenHypergraph :=
  if target f ≠ source g then .error .typeMismatch
  else do
    let h ← tensor f g
    let q ← FiniteFunction.coequalizer
      (FiniteFunction.inject0 f.t g.H.W) (FiniteFunction.inject1 g.s f.H.W)
    let s ← FiniteFunction.comp (FiniteFunction.inject0 f.s g.H.W) q
    let t ← FiniteFunction.comp (FiniteFunction.inject1 g.t f.H.W) q
    let H ← Hypergraph.coequalize_vertices h.H q
    mk? s t H

/-- The value `compose` assembles from the coequalizer `q` of the two
interfaces when all its checks pass. -/
def composeV (f g : OpenHypergraph) (q : FiniteFunction) : OpenHypergraph :=
  ⟨FiniteFunction.compT (FiniteFunction.inject0 f.s g.H.W) q,
   FiniteFunction.compT (FiniteFunction.inject1 g.t f.H.W) q,
   ⟨⟨f.H.s.sources ++ g.H.s.sources,
     FiniteFunction.compT (FiniteFunction.tensorT f.H.s.values g.H.s.values) q⟩,
    ⟨f.H.t.sources ++ g.H.t.sources,
     FiniteFunction.compT (FiniteFunction.tensorT f.H.t.values g.H.t.values) q⟩,
    FiniteFunction.universalT q (FiniteFunction.coprodT f.H.w g.H.w),
    FiniteFunction.coprodT f.H.x g.H.x⟩⟩

/-- `OpenHypergraph.twist(a, b, x, dtype)`: raises unless `len(x) == 0`,
else the canonical block swap; note the wires are typed by `b + a`. -/
def twist (a b x : FiniteFunction) (d : Nat) : Except Err OpenHypergraph :=
  if x.source ≠ 0 then .error .invalidArgument
  else do
    let ba ← FiniteFunction.coprod b a
    mk? (FiniteFunction.twist a.source b.source d)
      (FiniteFunction.identity (a.source + b.source) d)
      (Hypergraph.discrete ba x d)

/-- `OpenHypergraph.dagger()`: swap the two interfaces. -/
def dagger (f : OpenHypergraph) : Except Err OpenHypergraph :=
  mk? f.t f.s f.H

/-- `OpenHypergraph.spider(s, t, w, x, dtype)`: arbitrary interfaces over
the discrete hypergraph on `w`; `dtype` defaults to `s`'s. -/
def spider (s t w x : FiniteFunction) (d : Option Nat) : Except Err OpenHypergraph :=
  mk? s t (Hypergraph.discrete w x (d.getD s.dtype))

/-- `OpenHypergraph.half_spider(s, w, x, dtype)`: the spider whose target
interface is the identity on `len(w)` (built at the default dtype). -/
def half_spider (s w x : FiniteFunction) (d : Option Nat) : Except Err OpenHypergraph :=
  spider s (FiniteFunction.identity w.source DTYPE) w x (some (d.getD s.dtype))

/-- `OpenHypergraph.singleton(x, a, b, dtype)`: the open hypergraph of one
operation `x : A → B`; raises unless `len(x) == 1` and
`a.target == b.target`. -/
def singleton (x a b : FiniteFunction) (d : Option Nat) : Except Err OpenHypergraph :=
  if x.source ≠ 1 then .error .arityMismatch
  else if a.target ≠ b.target then .error .arityMismatch
  else do
    let dt := d.getD DTYPE
    let si := FiniteFunction.inj0 a.source b.source dt
    let ti := FiniteFunction.inj1 a.source b.source dt
    let w ← FiniteFunction.coprod a b
    mk? si ti ⟨⟨[si.source], si⟩, ⟨[ti.source], ti⟩, w, x⟩

end OpenHypergraph

/-- `Optic.interleave_blocks(A, B, x)`: the pure spider from `A + B` to
the per-index interleaving `(A₀ + B₀) + (A₁ + B₁) + ...`; raises unless
`len(A) == len(B)`. -/
def interleave_blocks (A B : IndexedCoproduct) (x : FiniteFunction) :
    Except Err OpenHypergraph :=
  if A.len ≠ B.len then .error .lengthMismatch
  else do
    let AB ← IndexedCoproduct.concat A B
    let s := FiniteFunction.identity AB.values.source AB.dtype
    let t := injectionsL AB.sources (FiniteFunction.transpose 2 A.len AB.dtype)
    OpenHypergraph.spider s t AB.values x none

/-- `Optic.map_objects(A)`, given the forward image `FA = F(A)` and the
reverse image `RA = R(A)` of the abstract functors: pair the blocks of
the two halves via `transpose(2, n)`, summing block sizes pointwise. -/
def map_objects (FA RA : IndexedCoproduct) (d : Nat) : Except Err IndexedCoproduct :=
  if FA.len ≠ RA.len then .error .structuralMismatch
  else do
    let paired ← IndexedCoproduct.concat FA RA
    let p := FiniteFunction.transpose 2 FA.len d
    .ok ⟨List.zipWith (fun m k => m + k) FA.sources RA.sources,
         (paired.map_indexes p).values⟩

instance {α β : Type} [DecidableEq α] [DecidableEq β] : DecidableEq (Except α β) :=
  fun a b =>
    match a, b with
    | .ok x, .ok y =>
      if h : x = y then .isTrue (by rw [h])
      else .isFalse (fun hc => h (Except.ok.inj hc))
    | .error x, .error y =>
      if h : x = y then .isTrue (by rw [h])
      else .isFalse (fun hc => h (Except.error.inj hc))
    | .ok _, .error _ => .isFalse (fun hc => Except.noConfusion hc)
    | .error _, .ok _ => .isFalse (fun hc => Except.noConfusion hc)

/-- A one-wire type map: one wire of type `0`, alphabet `Σ₀ = 1`, dtype `0`. -/
def wA : FiniteFunction := ⟨[0], 1, 0⟩

/-- The empty operation labelling into the empty alphabet `Σ₁ = 0`. -/
def xE : FiniteFunction := ⟨[], 0, 0⟩

/-- The identity open hypergraph on one wire (dtype `0`). -/
def idOH : OpenHypergraph :=
  ⟨⟨[0], 1, 0⟩, ⟨[0], 1, 0⟩, ⟨⟨[], ⟨[], 1, 0⟩⟩, ⟨[], ⟨[], 1, 0⟩⟩, ⟨[0], 1, 0⟩, ⟨[], 0, 0⟩⟩⟩

/-- The identity open hypergraph on one wire, built at dtype `1`. -/
def idOHd1 : OpenHypergraph :=
  ⟨⟨[0], 1, 1⟩, ⟨[0], 1, 1⟩, ⟨⟨[], ⟨[], 1, 1⟩⟩, ⟨[], ⟨[], 1, 1⟩⟩, ⟨[0], 1, 1⟩, ⟨[], 0, 1⟩⟩⟩

/-- The identity open hypergraph on one wire over the one-operation
alphabet `Σ₁ = 1` (still with no hyperedges). -/
def idOHx1 : OpenHypergraph :=
  ⟨⟨[0], 1, 0⟩, ⟨[0], 1, 0⟩, ⟨⟨[], ⟨[], 1, 0⟩⟩, ⟨[], ⟨[], 1, 0⟩⟩, ⟨[0], 1, 0⟩, ⟨[], 1, 0⟩⟩⟩

/-! ### General lemmas about the embedding -/

theorem bindOk {α β : Type} (a : α) (k : α → Except Err β) :
    (Except.ok a : Except Err α) >>= k = k a := rfl

theorem getD_map_lt {l : List Nat} (f : Nat → Nat) {i : Nat} (h : i < l.length) (d : Nat) :
    (l.map f).getD i d = f (l.getD i 0) := by
  rw [List.getD_eq_getElem _ _ (by simpa using h), List.getD_eq_getElem _ _ h,
    List.getElem_map]

theorem list_eq_of_getD {l₁ l₂ : List Nat} (hlen : l₁.length = l₂.length)
    (h : ∀ i, i < l₁.length → l₁.getD i 0 = l₂.getD i 0) : l₁ = l₂ := by
  refine List.ext_getElem hlen (fun n h₁ h₂ => ?_)
  have := h n h₁
  rwa [List.getD_eq_getElem _ _ h₁, List.getD_eq_getElem _ _ h₂] at this

theorem map_getD_range_self (l : List Nat) :
    (List.range l.length).map (fun i => l.getD i 0) = l := by
  refine List.ext_getElem (by simp) (fun n h₁ h₂ => ?_)
  rw [List.getElem_map, List.getElem_range, List.getD_eq_getElem _ _ h₂]

namespace FiniteFunction

theorem tensor_eq_ok {f g : FiniteFunction} (h : f.dtype = g.dtype) :
    tensor f g = .ok (tensorT f g) := by
  unfold tensor
  rw [if_neg (by simp [h])]

theorem coprod_eq_ok {f g : FiniteFunction} (h1 : f.dtype = g.dtype)
    (h2 : f.target = g.target) : coprod f g = .ok (coprodT f g) := by
  unfold coprod
  rw [if_neg (by simp [h1]), if_neg (by simp [h2])]

theorem comp_eq_ok {f g : FiniteFunction} (h1 : f.dtype = g.dtype)
    (h2 : f.target = g.source) : comp f g = .ok (compT f g) := by
  unfold comp
  rw [if_neg (by simp [h1]), if_neg (by simp [h2])]

end FiniteFunction

theorem mk?_eq_ok {s t : FiniteFunction} {H : Hypergraph} (h1 : s.dtype = t.dtype)
    (h2 : t.dtype = H.dtype) :
    OpenHypergraph.mk? s t H = .ok ⟨s, t, H⟩ := by
  unfold OpenHypergraph.mk?
  rw [if_pos ⟨h1, h2⟩]

/-! ### C6, C7, C10 -/

/-- C6: for every open hypergraph `f` (satisfying the dtype coherence its
dataclass constructor guarantees), `dagger` swaps the two interfaces,
leaves the underlying hypergraph unchanged, and is an involution. -/
theorem dagger_involution (f : OpenHypergraph)
    (h : f.s.dtype = f.t.dtype ∧ f.t.dtype = f.H.dtype) :
    OpenHypergraph.dagger f = .ok ⟨f.t, f.s, f.H⟩ ∧
    OpenHypergraph.dagger ⟨f.t, f.s, f.H⟩ = .ok f := by
  obtain ⟨s, t, G⟩ := f
  obtain ⟨h1, h2⟩ := h
  simp only at h1 h2
  constructor
  · exact mk?_eq_ok h1.symm (h1.trans h2)
  · exact mk?_eq_ok h1 h2

theorem dagger_involution_witness :
    OpenHypergraph.dagger idOH = .ok ⟨idOH.t, idOH.s, idOH.H⟩ ∧
    OpenHypergraph.dagger ⟨idOH.t, idOH.s, idOH.H⟩ = .ok idOH :=
  dagger_involution idOH (by decide)

/-- C7: `half_spider(s, w, x, dtype)` agrees with
`spider(s, identity(len(w)), w, x, dtype)` wherever the latter is
defined, for every dtype argument, not only the default. -/
theorem half_spider_eq_spider (s w x : FiniteFunction) (d : Option Nat)
    (r : OpenHypergraph)
    (h : OpenHypergraph.spider s (FiniteFunction.identity w.source DTYPE) w x d = .ok r) :
    OpenHypergraph.half_spider s w x d = .ok r := by
  simpa [OpenHypergraph.half_spider, OpenHypergraph.spider] using h

theorem half_spider_eq_spider_witness :
    OpenHypergraph.half_spider ⟨[0], 1, 0⟩ wA xE (some 0) = .ok idOH :=
  half_spider_eq_spider ⟨[0], 1, 0⟩ wA xE (some 0) idOH (by decide)

/-- C10 counterexample: with `x.source == 0` but the wires `w` carried at
a non-default dtype, `identity(w, x)` raises the dataclass dtype error
rather than returning the identity cospan, refuting the claim's success
half as stated. -/
theorem identity_cx :
    OpenHypergraph.identity ⟨[0], 1, 1⟩ ⟨[], 0, 1⟩ DTYPE = .error .dtypeMismatch := by
  decide

/-- C10 (amended): `identity(w, x, dtype)` raises whenever
`x.source != 0`; when `x.source == 0` and `w`'s dtype equals the
requested dtype, it returns the open hypergraph whose two interfaces are
the identity on `len(w)` over the discrete hypergraph on `w`. -/
theorem identity_spec (w x : FiniteFunction) (d : Nat) (hw : w.dtype = d) :
    (x.source ≠ 0 → OpenHypergraph.identity w x d = .error .invalidArgument) ∧
    (x.source = 0 → OpenHypergraph.identity w x d =
      .ok ⟨FiniteFunction.identity w.source d, FiniteFunction.identity w.source d,
           Hypergraph.discrete w x d⟩) := by
  constructor
  · intro hx
    simp [OpenHypergraph.identity, hx]
  · intro hx
    simp only [OpenHypergraph.identity, hx]
    rw [if_neg (by simp)]
    exact mk?_eq_ok rfl (by simpa [Hypergraph.discrete, Hypergraph.dtype] using hw.symm)

theorem identity_spec_witness :
    OpenHypergraph.identity wA xE 0 =
      .ok ⟨FiniteFunction.identity wA.source 0, FiniteFunction.identity wA.source 0,
           Hypergraph.discrete wA xE 0⟩ :=
  (identity_spec wA xE 0 (by decide)).2 (by decide)

/-! ### C8: twist -/

/-- C8 counterexample: with `len(x) == 0` but `a` and `b` typed into
distinct alphabets, `twist(a, b, x)` fails (the wire labels `b + a`
cannot be copaired), refuting the claim's success half as stated. -/
theorem twist_cx :
    OpenHypergraph.twist ⟨[0], 1, 0⟩ ⟨[0], 2, 0⟩ ⟨[], 0, 0⟩ 0 = .error .typeMismatch := by
  decide

/-- C8 (amended): `twist(a, b, x, dtype)` fails with the invalid-argument
error whenever `len(x) != 0`; when `len(x) == 0` and `a, b` share their
alphabet and are carried at the requested dtype, it returns the open
hypergraph with no hyperedges swapping the two blocks: source type
sequence `a ++ b`, target type sequence `b ++ a`. -/
theorem twist_spec (a b x : FiniteFunction) (d : Nat)
    (hT : a.target = b.target) (hda : a.dtype = d) (hdb : b.dtype = d) :
    (x.source ≠ 0 → OpenHypergraph.twist a b x d = .error .invalidArgument) ∧
    (x.source = 0 → ∃ r, OpenHypergraph.twist a b x d = .ok r ∧
      r.H.s.sources = [] ∧ r.H.t.sources = [] ∧
      OpenHypergraph.source r = ⟨a.table ++ b.table, a.target, d⟩ ∧
      OpenHypergraph.target r = ⟨b.table ++ a.table, a.target, d⟩) := by
  constructor
  · intro hx
    simp [OpenHypergraph.twist, hx]
  · intro hx
    refine ⟨⟨FiniteFunction.twist a.source b.source d,
             FiniteFunction.identity (a.source + b.source) d,
             Hypergraph.discrete (FiniteFunction.coprodT b a) x d⟩, ?_, rfl, rfl, ?_, ?_⟩
    · simp only [OpenHypergraph.twist, hx]
      rw [if_neg (by simp)]
      rw [FiniteFunction.coprod_eq_ok (hdb.trans hda.symm) hT.symm, bindOk]
      exact mk?_eq_ok rfl
        (by simp [Hypergraph.discrete, Hypergraph.dtype, FiniteFunction.coprodT,
              FiniteFunction.identity, hdb])
    · show FiniteFunction.compT (FiniteFunction.twist a.source b.source d)
        (FiniteFunction.coprodT b a) = ⟨a.table ++ b.table, a.target, d⟩
      unfold FiniteFunction.compT FiniteFunction.twist FiniteFunction.coprodT
      simp only [FiniteFunction.mk.injEq]
      refine ⟨?_, hT.symm, trivial⟩
      rw [List.map_map]
      refine List.ext_getElem (by simp [FiniteFunction.source]) (fun n h₁ h₂ => ?_)
      simp only [List.length_map, List.length_range] at h₁
      simp only [List.getElem_map, List.getElem_range, Function.comp_apply]
      have ha : a.source = a.table.length := rfl
      have hb : b.source = b.table.length := rfl
      by_cases hn : n < a.source
      · rw [if_pos hn]
        have hbl : b.table.length ≤ b.source + n := Nat.le_add_right _ _
        rw [List.getD_append_right _ _ _ _ hbl]
        have hidx : b.source + n - b.table.length = n := by omega
        have hn' : n < a.table.length := by omega
        rw [hidx, List.getD_eq_getElem _ _ hn']
        exact (List.getElem_append_left hn').symm
      · rw [if_neg hn]
        have hlt : n - a.source < b.table.length := by
          simp only [List.length_append] at h₂
          omega
        rw [List.getD_append _ _ _ _ hlt, List.getD_eq_getElem _ _ hlt]
        rw [List.getElem_append_right (by omega)]
        rfl
    · show FiniteFunction.compT (FiniteFunction.identity (a.source + b.source) d)
        (FiniteFunction.coprodT b a) = ⟨b.table ++ a.table, a.target, d⟩
      unfold FiniteFunction.compT FiniteFunction.identity FiniteFunction.coprodT
      simp only [FiniteFunction.mk.injEq]
      refine ⟨?_, hT.symm, trivial⟩
      refine List.ext_getElem (by simp [FiniteFunction.source]; omega) (fun n h₁ h₂ => ?_)
      simp only [List.length_map, List.length_range] at h₁
      simp only [List.getElem_map, List.getElem_range]
      rw [List.getD_eq_getElem _ _ h₂]

theorem twist_spec_witness :
    ∃ r, OpenHypergraph.twist wA wA xE 0 = .ok r ∧
      r.H.s.sources = [] ∧ r.H.t.sources = [] ∧
      OpenHypergraph.source r = ⟨wA.table ++ wA.table, wA.target, 0⟩ ∧
      OpenHypergraph.target r = ⟨wA.table ++ wA.table, wA.target, 0⟩ :=
  (twist_spec wA wA xE 0 (by decide) (by decide) (by decide)).2 (by decide)

/-! ### C9: singleton -/

/-- C9 counterexample: with `len(x) == 1` and `a.target == b.target` but
`a, b` carried at a non-default dtype, `singleton(x, a, b)` raises the
dataclass dtype check instead of returning an open hypergraph, refuting
the claim's success half as stated. -/
theorem singleton_cx :
    OpenHypergraph.singleton ⟨[0], 1, 0⟩ ⟨[0], 1, 1⟩ ⟨[0], 1, 1⟩ none =
      .error .dtypeMismatch := by
  decide

/-- C9 (amended): `singleton(x, a, b)` fails with the arity error when
`len(x) != 1` or `a.target != b.target`; otherwise, provided `a` and `b`
are carried at the default dtype, it returns the open hypergraph with
exactly one hyperedge labelled by `x`, whose source interface has length
`len(a)` and whose target interface has length `len(b)`. -/
theorem singleton_spec (x a b : FiniteFunction)
    (hda : a.dtype = DTYPE) (hdb : b.dtype = DTYPE) :
    ((x.source ≠ 1 ∨ a.target ≠ b.target) →
      OpenHypergraph.singleton x a b none = .error .arityMismatch) ∧
    (x.source = 1 → a.target = b.target →
      ∃ r, OpenHypergraph.singleton x a b none = .ok r ∧
        r.H.x = x ∧ r.H.s.sources = [a.source] ∧ r.H.t.sources = [b.source] ∧
        r.s.source = a.source ∧ r.t.source = b.source) := by
  constructor
  · intro hfail
    by_cases hx : x.source = 1
    · have hab : a.target ≠ b.target := by
        rcases hfail with h | h
        · exact absurd hx h
        · exact h
      simp [OpenHypergraph.singleton, hx, hab]
    · simp [OpenHypergraph.singleton, hx]
  · intro hx hab
    refine ⟨⟨FiniteFunction.inj0 a.source b.source DTYPE,
             FiniteFunction.inj1 a.source b.source DTYPE,
             ⟨⟨[(FiniteFunction.inj0 a.source b.source DTYPE).source],
               FiniteFunction.inj0 a.source b.source DTYPE⟩,
              ⟨[(FiniteFunction.inj1 a.source b.source DTYPE).source],
               FiniteFunction.inj1 a.source b.source DTYPE⟩,
              FiniteFunction.coprodT a b, x⟩⟩, ?_, rfl, ?_, ?_, ?_, ?_⟩
    · simp only [OpenHypergraph.singleton, hx]
      rw [if_neg (by simp), if_neg (by simp [hab])]
      simp only [Option.getD_none]
      rw [FiniteFunction.coprod_eq_ok (hda.trans hdb.symm) hab, bindOk]
      exact mk?_eq_ok rfl
        (by simp [Hypergraph.dtype, FiniteFunction.coprodT, FiniteFunction.inj1, hda])
    · simp [FiniteFunction.inj0, FiniteFunction.source]
    · simp [FiniteFunction.inj1, FiniteFunction.source]
    · simp [FiniteFunction.inj0, FiniteFunction.source]
    · simp [FiniteFunction.inj1, FiniteFunction.source]

theorem singleton_spec_witness :
    ∃ r, OpenHypergraph.singleton ⟨[0], 1, 0⟩ wA wA none = .ok r ∧
      r.H.x = ⟨[0], 1, 0⟩ ∧ r.H.s.sources = [wA.source] ∧ r.H.t.sources = [wA.source] ∧
      r.s.source = wA.source ∧ r.t.source = wA.source :=
  (singleton_spec ⟨[0], 1, 0⟩ wA wA (by decide) (by decide)).2 (by decide) (by decide)

/-! ### C3: tensor -/

/-- C3 counterexample: tensor of two (well-formed) open hypergraphs built
at distinct dtypes fails, since the collaborator layer refuses to
combine finite functions of distinct widths; so tensor is not
failure-free for every pair, refuting the claim as stated. -/
theorem tensor_total_cx :
    idOH.Wf ∧ idOHd1.Wf ∧ OpenHypergraph.tensor idOH idOHd1 = .error .dtypeMismatch := by
  decide

/-- Disjoint union of the hypergraphs of two compatible open
hypergraphs always passes its checks. -/
theorem hadd_eval (f g : OpenHypergraph) (wff : f.Wf) (wfg : g.Wf)
    (hd : f.dtype = g.dtype) (hw : f.H.w.target = g.H.w.target)
    (hx : f.H.x.target = g.H.x.target) :
    Hypergraph.add f.H g.H = .ok (Hypergraph.addT f.H g.H) := by
  obtain ⟨hfs, hft, hfb1, hfb2, hfd1, hfd2, hfH⟩ := wff
  obtain ⟨hgs, hgt, hgb1, hgb2, hgd1, hgd2, hgH⟩ := wfg
  obtain ⟨-, -, -, -, -, -, -, -, -, -, hfd3, hfd4, hfd5⟩ := hfH
  obtain ⟨-, -, -, -, -, -, -, -, -, -, hgd3, hgd4, hgd5⟩ := hgH
  have hd0 : f.s.dtype = g.s.dtype := hd
  have dft : f.t.dtype = f.s.dtype := hfd1.symm
  have dfH : f.H.dtype = f.s.dtype := hfd2.symm.trans dft
  have dgt : g.t.dtype = f.s.dtype := hgd1.symm.trans hd0.symm
  have dgH : g.H.dtype = f.s.dtype := hgd2.symm.trans dgt
  have e3 : IndexedCoproduct.tensorIC f.H.s g.H.s =
      .ok ⟨f.H.s.sources ++ g.H.s.sources,
           FiniteFunction.tensorT f.H.s.values g.H.s.values⟩ := by
    unfold IndexedCoproduct.tensorIC
    rw [FiniteFunction.tensor_eq_ok ((hfd3.trans dfH).trans (hgd3.trans dgH).symm), bindOk]
  have e4 : IndexedCoproduct.tensorIC f.H.t g.H.t =
      .ok ⟨f.H.t.sources ++ g.H.t.sources,
           FiniteFunction.tensorT f.H.t.values g.H.t.values⟩ := by
    unfold IndexedCoproduct.tensorIC
    rw [FiniteFunction.tensor_eq_ok ((hfd4.trans dfH).trans (hgd4.trans dgH).symm), bindOk]
  have e5 : FiniteFunction.coprod f.H.w g.H.w =
      .ok (FiniteFunction.coprodT f.H.w g.H.w) :=
    FiniteFunction.coprod_eq_ok (dfH.trans dgH.symm) hw
  have e6 : FiniteFunction.coprod f.H.x g.H.x =
      .ok (FiniteFunction.coprodT f.H.x g.H.x) :=
    FiniteFunction.coprod_eq_ok ((hfd5.trans dfH).trans (hgd5.trans dgH).symm) hx
  unfold Hypergraph.add
  rw [e3, bindOk, e4, bindOk, e5, bindOk, e6, bindOk]
  rfl

theorem tensor_eval (f g : OpenHypergraph) (wff : f.Wf) (wfg : g.Wf)
    (hd : f.dtype = g.dtype) (hw : f.H.w.target = g.H.w.target)
    (hx : f.H.x.target = g.H.x.target) :
    OpenHypergraph.tensor f g = .ok (OpenHypergraph.tensorU f g) := by
  have hd0 : f.s.dtype = g.s.dtype := hd
  have dft : f.t.dtype = f.s.dtype := wff.2.2.2.2.1.symm
  have dfH : f.H.dtype = f.s.dtype := wff.2.2.2.2.2.1.symm.trans dft
  have dgt : g.t.dtype = f.s.dtype := wfg.2.2.2.2.1.symm.trans hd0.symm
  have e1 : FiniteFunction.tensor f.s g.s = .ok (FiniteFunction.tensorT f.s g.s) :=
    FiniteFunction.tensor_eq_ok hd0
  have e2 : FiniteFunction.tensor f.t g.t = .ok (FiniteFunction.tensorT f.t g.t) :=
    FiniteFunction.tensor_eq_ok (dft.trans dgt.symm)
  have e7 := hadd_eval f g wff wfg hd hw hx
  unfold OpenHypergraph.tensor
  rw [e1, bindOk, e2, bindOk, e7, bindOk]
  exact mk?_eq_ok (dft.symm) (dft.trans dfH.symm)

/-- C3 (amended): for every pair of well-formed open hypergraphs sharing
a dtype and the two label alphabets, tensor succeeds with the
juxtaposition of interfaces over the disjoint union of the hypergraphs,
with no quotienting: `h.s = f.s ⊕ g.s`, `h.t = f.t ⊕ g.t`,
`h.H = f.H + g.H`. -/
theorem tensor_components (f g : OpenHypergraph) (wff : f.Wf) (wfg : g.Wf)
    (hd : f.dtype = g.dtype) (hw : f.H.w.target = g.H.w.target)
    (hx : f.H.x.target = g.H.x.target) :
    ∃ h, OpenHypergraph.tensor f g = .ok h ∧
      h.s = FiniteFunction.tensorT f.s g.s ∧ h.t = FiniteFunction.tensorT f.t g.t ∧
      Hypergraph.add f.H g.H = .ok h.H :=
  ⟨OpenHypergraph.tensorU f g, tensor_eval f g wff wfg hd hw hx, rfl, rfl,
   hadd_eval f g wff wfg hd hw hx⟩

theorem tensor_components_witness :
    ∃ h, OpenHypergraph.tensor idOH idOH = .ok h ∧
      h.s = FiniteFunction.tensorT idOH.s idOH.s ∧
      h.t = FiniteFunction.tensorT idOH.t idOH.t ∧
      Hypergraph.add idOH.H idOH.H = .ok h.H :=
  tensor_components idOH idOH (by decide) (by decide) (by decide) (by decide) (by decide)

/-! ### Lemmas on blocks, slices and the transpose permutation -/

theorem range'_map_getD (l : List Nat) (a n : Nat) (h : a + n ≤ l.length) :
    (List.range' a n).map (fun i => l.getD i 0) = (l.drop a).take n := by
  induction n generalizing a with
  | zero => simp
  | succ n ih =>
    rw [List.range'_succ, List.map_cons]
    have ha : a < l.length := by omega
    rw [List.getD_eq_getElem _ _ ha]
    rw [List.drop_eq_getElem_cons ha, List.take_succ_cons, ih (a + 1) (by omega)]

theorem sum_take_getD_le (s : List Nat) (i : Nat) (h : i < s.length) :
    (s.take i).sum + s.getD i 0 ≤ s.sum := by
  rw [List.getD_eq_getElem _ _ h, ← List.sum_take_succ _ _ h]
  conv_rhs => rw [← List.take_append_drop (i + 1) s]
  rw [List.sum_append]
  omega

theorem blocksOf_eq_map_range (ns : List Nat) (vs : List Nat) :
    blocksOf ns vs = (List.range ns.length).map
      (fun i => (vs.drop ((ns.take i).sum)).take (ns.getD i 0)) := by
  induction ns generalizing vs with
  | nil => simp [blocksOf]
  | cons n ns ih =>
    rw [blocksOf, List.length_cons, List.range_succ_eq_map, List.map_cons, List.map_map]
    have htail : blocksOf ns (vs.drop n) =
        List.map ((fun i => (vs.drop (((n :: ns).take i).sum)).take ((n :: ns).getD i 0)) ∘
          Nat.succ) (List.range ns.length) := by
      rw [ih (vs.drop n)]
      refine List.map_congr_left (fun i hi => ?_)
      simp only [Function.comp_apply, List.take_succ_cons, List.sum_cons, List.getD_cons_succ]
      rw [List.drop_drop]
    rw [← htail]
    simp

theorem blocksOf_map_length (ns vs : List Nat) (h : ns.sum ≤ vs.length) :
    (blocksOf ns vs).map List.length = ns := by
  induction ns generalizing vs with
  | nil => simp [blocksOf]
  | cons n ns ih =>
    rw [blocksOf, List.map_cons]
    simp only [List.sum_cons] at h
    rw [List.length_take]
    congr 1
    · exact Nat.min_eq_left (by omega)
    · exact ih (vs.drop n) (by rw [List.length_drop]; omega)

theorem blocksOf_flatten (L : List (List Nat)) :
    blocksOf (L.map List.length) L.flatten = L := by
  induction L with
  | nil => simp [blocksOf]
  | cons l L ih =>
    rw [List.map_cons, List.flatten_cons, blocksOf, List.take_left, List.drop_left, ih]

theorem sum_zipWith_add (l₁ l₂ : List Nat) (h : l₁.length = l₂.length) :
    (List.zipWith (fun m k => m + k) l₁ l₂).sum = l₁.sum + l₂.sum := by
  induction l₁ generalizing l₂ with
  | nil =>
    cases l₂ with
    | nil => simp
    | cons b l₂ => simp at h
  | cons a l₁ ih =>
    cases l₂ with
    | nil => simp at h
    | cons b l₂ =>
      simp only [List.zipWith_cons_cons, List.sum_cons]
      rw [ih l₂ (by simpa using h)]
      omega

theorem range_two_mul_flatten (n : Nat) :
    List.range (2 * n) = ((List.range n).map (fun i => [2 * i, 2 * i + 1])).flatten := by
  induction n with
  | zero => simp
  | succ n ih =>
    have h2 : 2 * (n + 1) = (2 * n) + 1 + 1 := by omega
    rw [h2, List.range_succ, List.range_succ, List.range_succ, List.map_append,
      List.flatten_append, ← ih]
    simp

theorem transpose_two_table (n d : Nat) :
    (FiniteFunction.transpose 2 n d).table =
      ((List.range n).map (fun i => [i, n + i])).flatten := by
  unfold FiniteFunction.transpose
  simp only
  rw [range_two_mul_flatten, List.map_flatten, List.map_map]
  congr 1
  refine List.map_congr_left (fun i hi => ?_)
  have h1 : 2 * i % 2 = 0 := by omega
  have h2 : 2 * i / 2 = i := by omega
  have h3 : (2 * i + 1) % 2 = 1 := by omega
  have h4 : (2 * i + 1) / 2 = i := by omega
  simp only [Function.comp_apply, List.map_cons, List.map_nil, h1, h2, h3, h4]
  norm_num

/-- The table of the interleaving spider target map: composing the
`transpose(2, n)`-selected block injections with the concatenated
values yields the per-index interleaving of the two block lists. -/
theorem interleave_core (sA sB tA tB : List Nat) (T D d : Nat)
    (hA : sA.sum = tA.length) (hB : sB.sum = tB.length) (hn : sA.length = sB.length) :
    (FiniteFunction.compT
        (injectionsL (sA ++ sB) (FiniteFunction.transpose 2 sA.length d))
        ⟨tA ++ tB, T, D⟩).table =
      (List.zipWith (fun u v => u ++ v) (blocksOf sA tA) (blocksOf sB tB)).flatten := by
  unfold FiniteFunction.compT injectionsL
  dsimp only
  rw [transpose_two_table]
  rw [List.map_flatten, List.map_map, List.map_flatten, List.map_map,
    List.flatten_flatten, List.map_map]
  rw [blocksOf_eq_map_range sA tA, blocksOf_eq_map_range sB tB, ← hn,
    List.zipWith_map, List.zipWith_same]
  refine congrArg List.flatten (List.map_congr_left fun i hi => ?_)
  have hi' : i < sA.length := List.mem_range.mp hi
  have hiB : i < sB.length := by omega
  simp only [Function.comp_apply, List.map_cons, List.map_nil, List.flatten_cons,
    List.flatten_nil, List.append_nil]
  have hsum := sum_take_getD_le sA i hi'
  have hsumB := sum_take_getD_le sB i hiB
  congr 1
  · rw [List.take_append_of_le_length (le_of_lt hi'), List.getD_append _ _ _ _ hi']
    have hbound : (sA.take i).sum + sA.getD i 0 ≤ (tA ++ tB).length := by
      rw [List.length_append]; omega
    rw [range'_map_getD _ _ _ hbound]
    rw [List.drop_append_of_le_length (by omega)]
    rw [List.take_append_of_le_length (by rw [List.length_drop]; omega)]
  · rw [List.take_append, List.sum_append, hA,
      List.getD_append_right _ _ _ _ (Nat.le_add_right _ _)]
    have hidx : sA.length + i - sA.length = i := by omega
    rw [hidx]
    have hbB : tA.length + (sB.take i).sum + sB.getD i 0 ≤ (tA ++ tB).length := by
      rw [List.length_append]; omega
    rw [range'_map_getD _ _ _ hbB, List.drop_append]

theorem bindErr {α β : Type} (e : Err) (k : α → Except Err β) :
    (Except.error e : Except Err α) >>= k = .error e := rfl

theorem coprod_ok_inv {f g v : FiniteFunction} (h : FiniteFunction.coprod f g = .ok v) :
    f.dtype = g.dtype ∧ f.target = g.target ∧ v = FiniteFunction.coprodT f g := by
  unfold FiniteFunction.coprod at h
  by_cases h1 : f.dtype = g.dtype
  · rw [if_neg (by simp [h1])] at h
    by_cases h2 : f.target = g.target
    · rw [if_neg (by simp [h2])] at h
      exact ⟨h1, h2, (Except.ok.inj h).symm⟩
    · rw [if_pos h2] at h
      exact absurd h (by simp)
  · rw [if_pos h1] at h
    exact absurd h (by simp)

theorem map_length_zipWith_append (L M : List (List Nat)) :
    (List.zipWith (fun u v => u ++ v) L M).map List.length =
      List.zipWith (fun m k => m + k) (L.map List.length) (M.map List.length) := by
  induction L generalizing M with
  | nil => cases M <;> simp
  | cons l L ih =>
    cases M with
    | nil => simp
    | cons m M => simp [ih]

/-! ### C4: interleave_blocks -/

/-- C4 counterexample: two IndexedCoproducts of equal length `1` whose
values are typed into distinct alphabets: `interleave_blocks` fails
instead of returning a pure spider, refuting the claim's success half as
stated. -/
theorem interleave_blocks_cx :
    IndexedCoproduct.len ⟨[1], ⟨[0], 1, 0⟩⟩ = IndexedCoproduct.len ⟨[1], ⟨[0], 2, 0⟩⟩ ∧
    interleave_blocks ⟨[1], ⟨[0], 1, 0⟩⟩ ⟨[1], ⟨[0], 2, 0⟩⟩ xE = .error .typeMismatch := by
  decide

/-- C4 (amended): `interleave_blocks(A, B, x)` fails with the
length-mismatch error when `len(A) != len(B)`; when
`len(A) == len(B) == N` (including `N = 0`), provided `A` and `B` share
their values alphabet and dtype, it returns a pure spider (no
hyperedges) whose source type sequence is the straight concatenation
`A ++ B` and whose target type sequence is the per-index interleaving
`(A₀ + B₀) + (A₁ + B₁) + ...`. -/
theorem interleave_blocks_spec (A B : IndexedCoproduct) (x : FiniteFunction)
    (wfA : A.Wf) (wfB : B.Wf)
    (hT : A.values.target = B.values.target) (hD : A.values.dtype = B.values.dtype) :
    (A.len ≠ B.len → interleave_blocks A B x = .error .lengthMismatch) ∧
    (A.len = B.len → ∃ r, interleave_blocks A B x = .ok r ∧
      r.H.s.sources = [] ∧ r.H.t.sources = [] ∧
      OpenHypergraph.source r =
        ⟨A.values.table ++ B.values.table, A.values.target, A.values.dtype⟩ ∧
      OpenHypergraph.target r =
        ⟨(List.zipWith (fun u v => u ++ v) A.blocks B.blocks).flatten,
         A.values.target, A.values.dtype⟩) := by
  constructor
  · intro hlen
    simp [interleave_blocks, hlen]
  · intro hlen
    have e1 : IndexedCoproduct.concat A B =
        .ok ⟨A.sources ++ B.sources, FiniteFunction.coprodT A.values B.values⟩ := by
      unfold IndexedCoproduct.concat
      rw [FiniteFunction.coprod_eq_ok hD hT, bindOk]
    refine ⟨⟨FiniteFunction.identity
               (FiniteFunction.coprodT A.values B.values).source A.values.dtype,
             injectionsL (A.sources ++ B.sources)
               (FiniteFunction.transpose 2 A.len A.values.dtype),
             Hypergraph.discrete (FiniteFunction.coprodT A.values B.values) x
               A.values.dtype⟩, ?_, rfl, rfl, ?_, ?_⟩
    · simp only [interleave_blocks, hlen]
      rw [if_neg (by simp), e1, bindOk]
      exact mk?_eq_ok rfl rfl
    · show FiniteFunction.compT
        (FiniteFunction.identity (FiniteFunction.coprodT A.values B.values).source
          A.values.dtype)
        (FiniteFunction.coprodT A.values B.values) = _
      unfold FiniteFunction.compT FiniteFunction.identity FiniteFunction.coprodT
      simp only [FiniteFunction.mk.injEq]
      exact ⟨map_getD_range_self _, trivial, trivial⟩
    · show FiniteFunction.compT
        (injectionsL (A.sources ++ B.sources)
          (FiniteFunction.transpose 2 A.sources.length A.values.dtype))
        ⟨A.values.table ++ B.values.table, A.values.target, A.values.dtype⟩ = _
      have htab := interleave_core A.sources B.sources A.values.table B.values.table
        A.values.target A.values.dtype A.values.dtype wfA wfB hlen
      unfold FiniteFunction.compT at htab ⊢
      dsimp only at htab ⊢
      simp only [FiniteFunction.mk.injEq]
      exact ⟨htab, trivial, rfl⟩

theorem interleave_blocks_spec_witness :
    ∃ r, interleave_blocks ⟨[1], ⟨[0], 1, 0⟩⟩ ⟨[1], ⟨[0], 1, 0⟩⟩ xE = .ok r ∧
      r.H.s.sources = [] ∧ r.H.t.sources = [] ∧
      OpenHypergraph.source r = ⟨[0] ++ [0], 1, 0⟩ ∧
      OpenHypergraph.target r =
        ⟨(List.zipWith (fun u v => u ++ v)
            (IndexedCoproduct.blocks ⟨[1], ⟨[0], 1, 0⟩⟩)
            (IndexedCoproduct.blocks ⟨[1], ⟨[0], 1, 0⟩⟩)).flatten, 1, 0⟩ :=
  (interleave_blocks_spec ⟨[1], ⟨[0], 1, 0⟩⟩ ⟨[1], ⟨[0], 1, 0⟩⟩ xE
    (by decide) (by decide) (by decide) (by decide)).2 (by decide)

/-! ### C5: optic map_objects -/

/-- C5: whenever the forward and reverse images `FA = F(A)`, `RA = R(A)`
agree on block count and the optic object mapping computes, its result
has `len = len(FA)`, total size `|FA| + |RA|`, and its `i`-th block is
the pair `(F(Aᵢ), R(Aᵢ))`, blocks interleaved adjacently via the
`transpose(2, n)` permutation. -/
theorem map_objects_spec (FA RA : IndexedCoproduct) (d : Nat) (r : IndexedCoproduct)
    (wfF : FA.Wf) (wfR : RA.Wf) (hn : FA.len = RA.len)
    (h : map_objects FA RA d = .ok r) :
    r.len = FA.len ∧ r.sources.sum = FA.values.source + RA.values.source ∧
    r.blocks = List.zipWith (fun u v => u ++ v) FA.blocks RA.blocks := by
  simp only [map_objects] at h
  rw [if_neg (by simp [hn])] at h
  cases hcp : FiniteFunction.coprod FA.values RA.values with
  | error e =>
    rw [show IndexedCoproduct.concat FA RA = .error e by
          unfold IndexedCoproduct.concat; rw [hcp, bindErr], bindErr] at h
    exact absurd h (by simp)
  | ok v =>
    obtain ⟨hD, hT, hv⟩ := coprod_ok_inv hcp
    rw [show IndexedCoproduct.concat FA RA =
          .ok ⟨FA.sources ++ RA.sources, FiniteFunction.coprodT FA.values RA.values⟩ by
          unfold IndexedCoproduct.concat
          rw [FiniteFunction.coprod_eq_ok hD hT, bindOk], bindOk] at h
    have hr := (Except.ok.inj h).symm
    subst hr
    have hlenF : (IndexedCoproduct.blocks FA).map List.length = FA.sources :=
      blocksOf_map_length _ _ (le_of_eq wfF)
    have hlenR : (IndexedCoproduct.blocks RA).map List.length = RA.sources :=
      blocksOf_map_length _ _ (le_of_eq wfR)
    refine ⟨?_, ?_, ?_⟩
    · show (List.zipWith (fun m k => m + k) FA.sources RA.sources).length = _
      rw [List.length_zipWith]
      have : FA.sources.length = RA.sources.length := hn
      rw [this, Nat.min_self]
      exact this.symm
    · show (List.zipWith (fun m k => m + k) FA.sources RA.sources).sum = _
      rw [sum_zipWith_add _ _ hn, wfF, wfR]
    · show blocksOf (List.zipWith (fun m k => m + k) FA.sources RA.sources)
        (FiniteFunction.compT
          (injectionsL (FA.sources ++ RA.sources)
            (FiniteFunction.transpose 2 FA.sources.length d))
          ⟨FA.values.table ++ RA.values.table,
           FA.values.target, FA.values.dtype⟩).table = _
      have htab := interleave_core FA.sources RA.sources FA.values.table RA.values.table
        FA.values.target FA.values.dtype d wfF wfR hn
      rw [htab]
      have hsizes : List.zipWith (fun m k => m + k) FA.sources RA.sources =
          (List.zipWith (fun u v => u ++ v)
            (IndexedCoproduct.blocks FA) (IndexedCoproduct.blocks RA)).map List.length := by
        rw [map_length_zipWith_append, hlenF, hlenR]
      rw [hsizes]
      exact blocksOf_flatten _

theorem map_objects_spec_witness :
    IndexedCoproduct.len ⟨[2], ⟨[0, 0], 1, 0⟩⟩ = IndexedCoproduct.len ⟨[1], ⟨[0], 1, 0⟩⟩ ∧
    List.sum (⟨[2], ⟨[0, 0], 1, 0⟩⟩ : IndexedCoproduct).sources =
      FiniteFunction.source (⟨[1], ⟨[0], 1, 0⟩⟩ : IndexedCoproduct).values +
      FiniteFunction.source (⟨[1], ⟨[0], 1, 0⟩⟩ : IndexedCoproduct).values ∧
    IndexedCoproduct.blocks ⟨[2], ⟨[0, 0], 1, 0⟩⟩ =
      List.zipWith (fun u v => u ++ v)
        (IndexedCoproduct.blocks ⟨[1], ⟨[0], 1, 0⟩⟩)
        (IndexedCoproduct.blocks ⟨[1], ⟨[0], 1, 0⟩⟩) :=
  map_objects_spec ⟨[1], ⟨[0], 1, 0⟩⟩ ⟨[1], ⟨[0], 1, 0⟩⟩ 0 ⟨[2], ⟨[0, 0], 1, 0⟩⟩
    (by decide) (by decide) (by decide) (by decide)

/-! ### The coequalizer: invariants of the union-merge label table -/

theorem getD_range {n i : Nat} (h : i < n) : (List.range n).getD i 0 = i := by
  rw [List.getD_eq_getElem _ _ (by simpa using h), List.getElem_range]

theorem getD_mem {l : List Nat} {i : Nat} (h : i < l.length) : l.getD i 0 ∈ l := by
  rw [List.getD_eq_getElem _ _ h]
  exact List.getElem_mem h

theorem mergeStep_length (labels : List Nat) (p : Nat × Nat) :
    (FiniteFunction.mergeStep labels p).length = labels.length := by
  unfold FiniteFunction.mergeStep
  exact List.length_map _ _

theorem foldl_mergeStep_length (ps : List (Nat × Nat)) (labels : List Nat) :
    (ps.foldl FiniteFunction.mergeStep labels).length = labels.length := by
  induction ps generalizing labels with
  | nil => rfl
  | cons p ps ih => rw [List.foldl_cons, ih, mergeStep_length]

theorem mergeLabels_length (W : Nat) (ps : List (Nat × Nat)) :
    (FiniteFunction.mergeLabels W ps).length = W := by
  unfold FiniteFunction.mergeLabels
  rw [foldl_mergeStep_length, List.length_range]

theorem mergeStep_getD (labels : List Nat) (p : Nat × Nat) {i : Nat}
    (h : i < labels.length) :
    (FiniteFunction.mergeStep labels p).getD i 0 =
      (if labels.getD i 0 = max (labels.getD p.1 0) (labels.getD p.2 0)
       then min (labels.getD p.1 0) (labels.getD p.2 0) else labels.getD i 0) := by
  unfold FiniteFunction.mergeStep
  exact getD_map_lt _ h 0

/-- Invariant of the union-merge label table on `W` vertices: lengths are
kept, labels never exceed their index, every label is a fixed point, and
the wire typing `wt` is constant on classes. -/
structure LabInv (W : Nat) (wt : List Nat) (labels : List Nat) : Prop where
  len : labels.length = W
  le : ∀ i, i < W → labels.getD i 0 ≤ i
  idem : ∀ i, i < W → labels.getD (labels.getD i 0) 0 = labels.getD i 0
  resp : ∀ i, i < W → wt.getD (labels.getD i 0) 0 = wt.getD i 0

theorem labInv_mergeStep {W : Nat} {wt labels : List Nat} (inv : LabInv W wt labels)
    {p : Nat × Nat} (hp1 : p.1 < W) (hp2 : p.2 < W)
    (hw : wt.getD p.1 0 = wt.getD p.2 0) :
    LabInv W wt (FiniteFunction.mergeStep labels p) := by
  have hlen := inv.len
  have hlx : labels.getD p.1 0 < W := lt_of_le_of_lt (inv.le p.1 hp1) hp1
  have hly : labels.getD p.2 0 < W := lt_of_le_of_lt (inv.le p.2 hp2) hp2
  have hm : min (labels.getD p.1 0) (labels.getD p.2 0) < W :=
    lt_of_le_of_lt (min_le_left _ _) hlx
  have hmf : labels.getD (min (labels.getD p.1 0) (labels.getD p.2 0)) 0 =
      min (labels.getD p.1 0) (labels.getD p.2 0) := by
    rcases min_choice (labels.getD p.1 0) (labels.getD p.2 0) with h | h <;> rw [h]
    · exact inv.idem p.1 hp1
    · exact inv.idem p.2 hp2
  have hwmM : wt.getD (min (labels.getD p.1 0) (labels.getD p.2 0)) 0 =
      wt.getD (max (labels.getD p.1 0) (labels.getD p.2 0)) 0 := by
    have hxy : wt.getD (labels.getD p.1 0) 0 = wt.getD (labels.getD p.2 0) 0 := by
      rw [inv.resp p.1 hp1, inv.resp p.2 hp2, hw]
    rcases min_choice (labels.getD p.1 0) (labels.getD p.2 0) with h1 | h1 <;>
      rcases max_choice (labels.getD p.1 0) (labels.getD p.2 0) with h2 | h2 <;>
        rw [h1, h2]
    · exact hxy
    · exact hxy.symm
  refine ⟨?_, ?_, ?_, ?_⟩
  · rw [mergeStep_length, hlen]
  · intro i hi
    rw [mergeStep_getD _ _ (by omega)]
    by_cases hc : labels.getD i 0 =
        max (labels.getD p.1 0) (labels.getD p.2 0)
    · rw [if_pos hc]
      calc min (labels.getD p.1 0) (labels.getD p.2 0)
          ≤ max (labels.getD p.1 0) (labels.getD p.2 0) := min_le_max
        _ = labels.getD i 0 := hc.symm
        _ ≤ i := inv.le i hi
    · rw [if_neg hc]
      exact inv.le i hi
  · intro i hi
    have hstep := @mergeStep_getD labels p i (by omega)
    rw [hstep]
    by_cases hc : labels.getD i 0 =
        max (labels.getD p.1 0) (labels.getD p.2 0)
    · rw [if_pos hc, mergeStep_getD _ _ (by omega)]
      simp only [hmf, ite_self]
    · rw [if_neg hc]
      have hib : labels.getD i 0 < labels.length := by
        have := inv.le i hi
        omega
      rw [mergeStep_getD _ _ hib, inv.idem i hi, if_neg hc]
  · intro i hi
    have hstep := @mergeStep_getD labels p i (by omega)
    rw [hstep]
    by_cases hc : labels.getD i 0 =
        max (labels.getD p.1 0) (labels.getD p.2 0)
    · rw [if_pos hc, hwmM, ← hc]
      exact inv.resp i hi
    · rw [if_neg hc]
      exact inv.resp i hi

theorem labInv_foldl {W : Nat} {wt : List Nat} (ps : List (Nat × Nat)) :
    ∀ labels : List Nat,
      (∀ p ∈ ps, p.1 < W ∧ p.2 < W ∧ wt.getD p.1 0 = wt.getD p.2 0) →
      LabInv W wt labels →
      LabInv W wt (ps.foldl FiniteFunction.mergeStep labels) := by
  induction ps with
  | nil => exact fun labels _ inv => inv
  | cons p ps ih =>
    intro labels hps inv
    rw [List.foldl_cons]
    obtain ⟨h1, h2, h3⟩ := hps p (List.mem_cons_self _ _)
    exact ih _ (fun q hq => hps q (List.mem_cons_of_mem _ hq))
      (labInv_mergeStep inv h1 h2 h3)

theorem labInv_range {W : Nat} (wt : List Nat) : LabInv W wt (List.range W) :=
  ⟨List.length_range W,
   fun i hi => le_of_eq (getD_range hi),
   fun i hi => by rw [getD_range hi]; exact getD_range hi,
   fun i hi => by rw [getD_range hi]⟩

theorem labInv_coeqLabels {a b : FiniteFunction} {wt : List Nat}
    (hps : ∀ p ∈ a.table.zip b.table, p.1 < a.target ∧ p.2 < a.target ∧
      wt.getD p.1 0 = wt.getD p.2 0) :
    LabInv a.target wt (FiniteFunction.coeqLabels a b) :=
  labInv_foldl _ _ hps (labInv_range wt)

theorem coeqLabels_length (a b : FiniteFunction) :
    (FiniteFunction.coeqLabels a b).length = a.target :=
  mergeLabels_length _ _

theorem mem_repsOf {labels : List Nat} {l : Nat} (h1 : l < labels.length)
    (h2 : labels.getD l 0 = l) : l ∈ FiniteFunction.repsOf labels := by
  unfold FiniteFunction.repsOf
  rw [List.mem_filter]
  exact ⟨List.mem_range.mpr h1, by simpa using h2⟩

theorem repsOf_nodup (labels : List Nat) : (FiniteFunction.repsOf labels).Nodup :=
  (List.nodup_range _).filter _

theorem repsOf_mem_prop {labels : List Nat} {l : Nat}
    (h : l ∈ FiniteFunction.repsOf labels) :
    l < labels.length ∧ labels.getD l 0 = l := by
  unfold FiniteFunction.repsOf at h
  rw [List.mem_filter] at h
  exact ⟨List.mem_range.mp h.1, by simpa using h.2⟩

theorem coeqT_table_length (a b : FiniteFunction) :
    (FiniteFunction.coeqT a b).table.length = a.target := by
  unfold FiniteFunction.coeqT
  dsimp only
  rw [List.length_map]
  exact coeqLabels_length a b

theorem coeqT_getD (a b : FiniteFunction) {i : Nat} (h : i < a.target) :
    (FiniteFunction.coeqT a b).table.getD i 0 =
      (FiniteFunction.coeqReps a b).indexOf
        ((FiniteFunction.coeqLabels a b).getD i 0) := by
  unfold FiniteFunction.coeqT
  dsimp only
  exact getD_map_lt _ (by rw [coeqLabels_length]; exact h) 0

theorem coeqT_getD_lt {a b : FiniteFunction} {wt : List Nat}
    (inv : LabInv a.target wt (FiniteFunction.coeqLabels a b)) {i : Nat}
    (h : i < a.target) :
    (FiniteFunction.coeqT a b).table.getD i 0 < (FiniteFunction.coeqT a b).target := by
  rw [coeqT_getD a b h]
  have hmem : (FiniteFunction.coeqLabels a b).getD i 0 ∈ FiniteFunction.coeqReps a b :=
    mem_repsOf
      (by rw [coeqLabels_length]; exact lt_of_le_of_lt (inv.le i h) h)
      (inv.idem i h)
  exact List.indexOf_lt_length.mpr hmem

theorem coeqT_target_mem (a b : FiniteFunction) {c : Nat}
    (hc : c < (FiniteFunction.coeqT a b).target) :
    c ∈ (FiniteFunction.coeqT a b).table := by
  have hcr : c < (FiniteFunction.coeqReps a b).length := hc
  obtain ⟨hlW, hlf⟩ := repsOf_mem_prop
    (show (FiniteFunction.coeqReps a b)[c] ∈ FiniteFunction.coeqReps a b from
      List.getElem_mem hcr)
  have h1 : (FiniteFunction.coeqT a b).table.getD ((FiniteFunction.coeqReps a b)[c]) 0 =
      (FiniteFunction.coeqReps a b).indexOf
        ((FiniteFunction.coeqLabels a b).getD ((FiniteFunction.coeqReps a b)[c]) 0) :=
    coeqT_getD a b (by rw [← coeqLabels_length a b]; exact hlW)
  rw [hlf] at h1
  have h2 : (FiniteFunction.coeqReps a b).indexOf ((FiniteFunction.coeqReps a b)[c]) =
      c := by
    have := List.get_indexOf (repsOf_nodup (FiniteFunction.coeqLabels a b)) ⟨c, hcr⟩
    simpa using this
  rw [h2] at h1
  rw [← h1]
  exact getD_mem (by rw [coeqT_table_length, ← coeqLabels_length a b]; exact hlW)

theorem coeq_universal (a b w : FiniteFunction)
    (hlen : w.table.length = a.target) (hdw : a.dtype = w.dtype)
    (hps : ∀ p ∈ a.table.zip b.table, p.1 < a.target ∧ p.2 < a.target ∧
      w.table.getD p.1 0 = w.table.getD p.2 0) :
    FiniteFunction.compT (FiniteFunction.coeqT a b)
      (FiniteFunction.universalT (FiniteFunction.coeqT a b) w) = w := by
  have inv : LabInv a.target w.table (FiniteFunction.coeqLabels a b) :=
    labInv_coeqLabels hps
  have hqlen := coeqT_table_length a b
  have hpoint : ∀ i, i < a.target →
      (FiniteFunction.universalT (FiniteFunction.coeqT a b) w).table.getD
        ((FiniteFunction.coeqT a b).table.getD i 0) 0 = w.table.getD i 0 := by
    intro i hi
    have hcQ : (FiniteFunction.coeqT a b).table.getD i 0 <
        (FiniteFunction.coeqT a b).target := coeqT_getD_lt inv hi
    have hu : (FiniteFunction.universalT (FiniteFunction.coeqT a b) w).table.getD
        ((FiniteFunction.coeqT a b).table.getD i 0) 0 =
        w.table.getD ((FiniteFunction.coeqT a b).table.indexOf
          ((FiniteFunction.coeqT a b).table.getD i 0)) 0 := by
      unfold FiniteFunction.universalT
      dsimp only
      rw [getD_map_lt _ (by simpa using hcQ) 0, getD_range hcQ]
    rw [hu]
    have hcmem : (FiniteFunction.coeqT a b).table.getD i 0 ∈
        (FiniteFunction.coeqT a b).table := getD_mem (by omega)
    have hidx : (FiniteFunction.coeqT a b).table.indexOf
        ((FiniteFunction.coeqT a b).table.getD i 0) <
        (FiniteFunction.coeqT a b).table.length :=
      List.indexOf_lt_length.mpr hcmem
    have hi0 : (FiniteFunction.coeqT a b).table.indexOf
        ((FiniteFunction.coeqT a b).table.getD i 0) < a.target := by omega
    have hq0 : (FiniteFunction.coeqT a b).table.getD
        ((FiniteFunction.coeqT a b).table.indexOf
          ((FiniteFunction.coeqT a b).table.getD i 0)) 0 =
        (FiniteFunction.coeqT a b).table.getD i 0 := by
      rw [List.getD_eq_getElem _ _ hidx]
      have := List.indexOf_get hidx
      simpa using this
    have hqi := coeqT_getD a b hi
    have hqi0 := coeqT_getD a b hi0
    have heqidx : (FiniteFunction.coeqReps a b).indexOf
        ((FiniteFunction.coeqLabels a b).getD
          ((FiniteFunction.coeqT a b).table.indexOf
            ((FiniteFunction.coeqT a b).table.getD i 0)) 0) =
        (FiniteFunction.coeqReps a b).indexOf
          ((FiniteFunction.coeqLabels a b).getD i 0) := by
      rw [← hqi0, hq0, hqi]
    have hmem0 : (FiniteFunction.coeqLabels a b).getD
        ((FiniteFunction.coeqT a b).table.indexOf
          ((FiniteFunction.coeqT a b).table.getD i 0)) 0 ∈
        FiniteFunction.coeqReps a b :=
      mem_repsOf
        (by rw [coeqLabels_length]; exact lt_of_le_of_lt (inv.le _ hi0) hi0)
        (inv.idem _ hi0)
    have hmem1 : (FiniteFunction.coeqLabels a b).getD i 0 ∈
        FiniteFunction.coeqReps a b :=
      mem_repsOf
        (by rw [coeqLabels_length]; exact lt_of_le_of_lt (inv.le i hi) hi)
        (inv.idem i hi)
    have hlab : (FiniteFunction.coeqLabels a b).getD
        ((FiniteFunction.coeqT a b).table.indexOf
          ((FiniteFunction.coeqT a b).table.getD i 0)) 0 =
        (FiniteFunction.coeqLabels a b).getD i 0 := by
      have e0 := List.indexOf_get (List.indexOf_lt_length.mpr hmem0)
      have e1 := List.indexOf_get (List.indexOf_lt_length.mpr hmem1)
      rw [← e0, ← e1]
      exact congrArg (FiniteFunction.coeqReps a b).get (Fin.ext heqidx)
    rw [← inv.resp _ hi0, hlab, inv.resp i hi]
  obtain ⟨wt, wT, wD⟩ := w
  simp only at hlen hdw hpoint
  have htable : ((FiniteFunction.coeqT a b).table.map
      (fun i => (FiniteFunction.universalT (FiniteFunction.coeqT a b)
        ⟨wt, wT, wD⟩).table.getD i 0)) = wt := by
    refine list_eq_of_getD ?_ ?_
    · rw [List.length_map, hqlen, hlen]
    · intro j hj
      rw [List.length_map, hqlen] at hj
      rw [getD_map_lt _ (by omega) 0]
      exact hpoint j hj
  unfold FiniteFunction.compT
  simp only [FiniteFunction.mk.injEq]
  exact ⟨htable, rfl, hdw⟩

/-! ### Evaluating compose -/

theorem mem_zip_getD {l₁ l₂ : List Nat} {p : Nat × Nat} (h : p ∈ l₁.zip l₂) :
    ∃ k, k < l₁.length ∧ k < l₂.length ∧ l₁.getD k 0 = p.1 ∧ l₂.getD k 0 = p.2 := by
  induction l₁ generalizing l₂ with
  | nil => simp at h
  | cons a l₁ ih =>
    cases l₂ with
    | nil => simp at h
    | cons b l₂ =>
      rw [List.zip_cons_cons] at h
      rcases List.mem_cons.mp h with h | h
      · refine ⟨0, by simp, by simp, ?_, ?_⟩
        · rw [h]
          rfl
        · rw [h]
          rfl
      · obtain ⟨k, hk1, hk2, hk3, hk4⟩ := ih h
        refine ⟨k + 1, by simpa using hk1, by simpa using hk2, ?_, ?_⟩
        · rw [List.getD_cons_succ]
          exact hk3
        · rw [List.getD_cons_succ]
          exact hk4

theorem coequalizer_eq_ok {a b : FiniteFunction} (hd : a.dtype = b.dtype)
    (hs : a.source = b.source) (htg : a.target = b.target)
    (hab : a.Bounded) (hbb : b.Bounded) :
    FiniteFunction.coequalizer a b = .ok (FiniteFunction.coeqT a b) := by
  unfold FiniteFunction.coequalizer
  rw [if_neg (by simp [hd]), if_neg (by simp [hs, htg]), if_pos ⟨hab, hbb⟩]

theorem coequalize_vertices_eq_ok {H : Hypergraph} {q : FiniteFunction}
    (hW : H.W = q.source)
    (hu : FiniteFunction.compT q (FiniteFunction.universalT q H.w) = H.w)
    (hd1 : H.s.values.dtype = q.dtype) (ht1 : H.s.values.target = q.source)
    (hd2 : H.t.values.dtype = q.dtype) (ht2 : H.t.values.target = q.source) :
    Hypergraph.coequalize_vertices H q =
      .ok ⟨⟨H.s.sources, FiniteFunction.compT H.s.values q⟩,
           ⟨H.t.sources, FiniteFunction.compT H.t.values q⟩,
           FiniteFunction.universalT q H.w, H.x⟩ := by
  unfold Hypergraph.coequalize_vertices
  rw [if_neg (by simp [hW]), if_neg (by simp [hu])]
  rw [FiniteFunction.comp_eq_ok hd1 ht1, bindOk, FiniteFunction.comp_eq_ok hd2 ht2,
    bindOk]

theorem compose_pairs (f g : OpenHypergraph)
    (hft : f.t.target = f.H.W) (hgs : g.s.target = g.H.W)
    (hftb : f.t.Bounded) (hgsb : g.s.Bounded)
    (httab : f.t.table.map (fun i => f.H.w.table.getD i 0) =
      g.s.table.map (fun i => g.H.w.table.getD i 0)) :
    ∀ p ∈ (FiniteFunction.inject0 f.t g.H.W).table.zip
        (FiniteFunction.inject1 g.s f.H.W).table,
      p.1 < (FiniteFunction.inject0 f.t g.H.W).target ∧
      p.2 < (FiniteFunction.inject0 f.t g.H.W).target ∧
      (FiniteFunction.coprodT f.H.w g.H.w).table.getD p.1 0 =
        (FiniteFunction.coprodT f.H.w g.H.w).table.getD p.2 0 := by
  intro p hp
  obtain ⟨k, hk1, hk2, hk3, hk4⟩ := mem_zip_getD hp
  have ha : (FiniteFunction.inject0 f.t g.H.W).table = f.t.table := rfl
  have hbT : (FiniteFunction.inject1 g.s f.H.W).table =
      g.s.table.map (fun v => f.H.W + v) := rfl
  rw [ha] at hk1 hk3
  rw [hbT] at hk2 hk4
  rw [List.length_map] at hk2
  rw [getD_map_lt _ hk2 0] at hk4
  have hv1 : f.t.table.getD k 0 < f.H.W := by
    have := hftb _ (getD_mem hk1)
    omega
  have hv2 : g.s.table.getD k 0 < g.H.W := by
    have := hgsb _ (getD_mem hk2)
    omega
  have hWf : f.H.W = f.H.w.table.length := rfl
  have hWg : g.H.W = g.H.w.table.length := rfl
  have hat : (FiniteFunction.inject0 f.t g.H.W).target = f.t.target + g.H.W := rfl
  refine ⟨?_, ?_, ?_⟩
  · rw [hat, ← hk3]
    omega
  · rw [hat, ← hk4]
    omega
  · rw [← hk3, ← hk4]
    have hcong := congrArg (fun l => l.getD k 0) httab
    simp only at hcong
    rw [getD_map_lt _ hk1 0, getD_map_lt _ hk2 0] at hcong
    have e1 : (FiniteFunction.coprodT f.H.w g.H.w).table.getD (f.t.table.getD k 0) 0 =
        f.H.w.table.getD (f.t.table.getD k 0) 0 :=
      List.getD_append _ _ _ _ (by omega)
    have e2 : (FiniteFunction.coprodT f.H.w g.H.w).table.getD
        (f.H.W + g.s.table.getD k 0) 0 =
        g.H.w.table.getD (g.s.table.getD k 0) 0 := by
      have h3 := List.getD_append_right f.H.w.table g.H.w.table 0
        (f.H.W + g.s.table.getD k 0) (by omega)
      rw [show f.H.W + g.s.table.getD k 0 - f.H.w.table.length = g.s.table.getD k 0
        from by omega] at h3
      exact h3
    rw [e1, e2, hcong]

theorem composeV_spec (f g : OpenHypergraph) (q : FiniteFunction)
    (wff : f.Wf) (wfg : g.Wf)
    (htt : f.H.w.target = g.H.w.target)
    (hx : f.H.x.target = g.H.x.target)
    (htgt : g.t.dtype = f.s.dtype)
    (hqtablen : q.table.length = f.H.W + g.H.W)
    (hqbound : ∀ i, i < f.H.W + g.H.W → q.table.getD i 0 < q.target)
    (hqocc : ∀ c, c < q.target → c ∈ q.table)
    (hupoint : ∀ v, v < f.H.W + g.H.W →
      (FiniteFunction.universalT q (FiniteFunction.coprodT f.H.w g.H.w)).table.getD
        (q.table.getD v 0) 0 =
        (FiniteFunction.coprodT f.H.w g.H.w).table.getD v 0) :
    (OpenHypergraph.composeV f g q).Wf ∧
    OpenHypergraph.source (OpenHypergraph.composeV f g q) = OpenHypergraph.source f ∧
    OpenHypergraph.target (OpenHypergraph.composeV f g q) = OpenHypergraph.target g := by
  obtain ⟨hfs, hft, hfsb, hftb, hfd1, hfd2, hfH⟩ := wff
  obtain ⟨hfsw, hftw, hfsv, hftv, hfsvb, hftvb, hfwb, hfxb, hfsl, hftl, hfd3, hfd4,
    hfd5⟩ := hfH
  obtain ⟨hgs, hgt, hgsb, hgtb, hgd1, hgd2, hgH⟩ := wfg
  obtain ⟨hgsw, hgtw, hgsv, hgtv, hgsvb, hgtvb, hgwb, hgxb, hgsl, hgtl, hgd3, hgd4,
    hgd5⟩ := hgH
  have hW1 : f.H.W = f.H.w.table.length := rfl
  have hW2 : g.H.W = g.H.w.table.length := rfl
  have hulen : (FiniteFunction.universalT q
      (FiniteFunction.coprodT f.H.w g.H.w)).table.length = q.target := by
    unfold FiniteFunction.universalT
    dsimp only
    rw [List.length_map, List.length_range]
  have hwtb : (FiniteFunction.coprodT f.H.w g.H.w).Bounded := by
    intro v hv
    show v < f.H.w.target
    rcases List.mem_append.mp hv with h | h
    · exact hfwb v h
    · have := hgwb v h
      omega
  have c1 : (OpenHypergraph.composeV f g q).s.target =
      (OpenHypergraph.composeV f g q).H.W := by
    show q.target = (FiniteFunction.universalT q
      (FiniteFunction.coprodT f.H.w g.H.w)).table.length
    rw [hulen]
  have c2 : (OpenHypergraph.composeV f g q).t.target =
      (OpenHypergraph.composeV f g q).H.W := c1
  have c3 : (OpenHypergraph.composeV f g q).s.Bounded := by
    intro v hv
    obtain ⟨v0, hv0, rfl⟩ := List.mem_map.mp hv
    show q.table.getD v0 0 < q.target
    apply hqbound
    have := hfsb v0 hv0
    omega
  have c4 : (OpenHypergraph.composeV f g q).t.Bounded := by
    intro v hv
    obtain ⟨v1, hv1, rfl⟩ := List.mem_map.mp hv
    obtain ⟨v0, hv0, rfl⟩ := List.mem_map.mp hv1
    show q.table.getD (f.H.W + v0) 0 < q.target
    apply hqbound
    have := hgtb v0 hv0
    omega
  have d1 : (OpenHypergraph.composeV f g q).H.s.Wf := by
    have l1 : f.H.s.sources.sum = f.H.s.values.table.length := hfsw
    have l2 : g.H.s.sources.sum = g.H.s.values.table.length := hgsw
    show (f.H.s.sources ++ g.H.s.sources).sum =
      ((f.H.s.values.table ++
        g.H.s.values.table.map (fun v => f.H.s.values.target + v)).map
          (fun i => q.table.getD i 0)).length
    rw [List.sum_append, List.length_map, List.length_append, List.length_map]
    omega
  have d2 : (OpenHypergraph.composeV f g q).H.t.Wf := by
    have l1 : f.H.t.sources.sum = f.H.t.values.table.length := hftw
    have l2 : g.H.t.sources.sum = g.H.t.values.table.length := hgtw
    show (f.H.t.sources ++ g.H.t.sources).sum =
      ((f.H.t.values.table ++
        g.H.t.values.table.map (fun v => f.H.t.values.target + v)).map
          (fun i => q.table.getD i 0)).length
    rw [List.sum_append, List.length_map, List.length_append, List.length_map]
    omega
  have d3 : (OpenHypergraph.composeV f g q).H.s.values.target =
      (OpenHypergraph.composeV f g q).H.W := c1
  have d4 : (OpenHypergraph.composeV f g q).H.t.values.target =
      (OpenHypergraph.composeV f g q).H.W := c1
  have d5 : (OpenHypergraph.composeV f g q).H.s.values.Bounded := by
    intro v hv
    obtain ⟨v0, hv0, rfl⟩ := List.mem_map.mp hv
    show q.table.getD v0 0 < q.target
    apply hqbound
    rcases List.mem_append.mp hv0 with h | h
    · have := hfsvb v0 h
      omega
    · obtain ⟨v1, hv1, rfl⟩ := List.mem_map.mp h
      have := hgsvb v1 hv1
      show f.H.s.values.target + v1 < f.H.W + g.H.W
      omega
  have d6 : (OpenHypergraph.composeV f g q).H.t.values.Bounded := by
    intro v hv
    obtain ⟨v0, hv0, rfl⟩ := List.mem_map.mp hv
    show q.table.getD v0 0 < q.target
    apply hqbound
    rcases List.mem_append.mp hv0 with h | h
    · have := hftvb v0 h
      omega
    · obtain ⟨v1, hv1, rfl⟩ := List.mem_map.mp h
      have := hgtvb v1 hv1
      show f.H.t.values.target + v1 < f.H.W + g.H.W
      omega
  have d7 : (OpenHypergraph.composeV f g q).H.w.Bounded := by
    intro v hv
    obtain ⟨c, hc, rfl⟩ := List.mem_map.mp hv
    have hcq : c < q.target := List.mem_range.mp hc
    have hmem := hqocc c hcq
    have hidx : q.table.indexOf c < q.table.length :=
      List.indexOf_lt_length.mpr hmem
    show (FiniteFunction.coprodT f.H.w g.H.w).table.getD (q.table.indexOf c) 0 <
      (FiniteFunction.coprodT f.H.w g.H.w).target
    apply hwtb
    apply getD_mem
    show q.table.indexOf c < (f.H.w.table ++ g.H.w.table).length
    rw [List.length_append]
    omega
  have d8 : (OpenHypergraph.composeV f g q).H.x.Bounded := by
    intro v hv
    rcases List.mem_append.mp hv with h | h
    · exact hfxb v h
    · have := hgxb v h
      show v < f.H.x.target
      omega
  have d9 : (OpenHypergraph.composeV f g q).H.s.len =
      (OpenHypergraph.composeV f g q).H.x.source := by
    have l3 : f.H.s.sources.length = f.H.x.table.length := hfsl
    have l4 : g.H.s.sources.length = g.H.x.table.length := hgsl
    show (f.H.s.sources ++ g.H.s.sources).length =
      (f.H.x.table ++ g.H.x.table).length
    rw [List.length_append, List.length_append]
    omega
  have d10 : (OpenHypergraph.composeV f g q).H.t.len =
      (OpenHypergraph.composeV f g q).H.x.source := by
    have l3 : f.H.t.sources.length = f.H.x.table.length := hftl
    have l4 : g.H.t.sources.length = g.H.x.table.length := hgtl
    show (f.H.t.sources ++ g.H.t.sources).length =
      (f.H.x.table ++ g.H.x.table).length
    rw [List.length_append, List.length_append]
    omega
  have hsrc : OpenHypergraph.source (OpenHypergraph.composeV f g q) =
      OpenHypergraph.source f := by
    have htabS : ((FiniteFunction.inject0 f.s g.H.W).table.map
        (fun i => q.table.getD i 0)).map
        (fun i => (FiniteFunction.universalT q
          (FiniteFunction.coprodT f.H.w g.H.w)).table.getD i 0) =
        f.s.table.map (fun i => f.H.w.table.getD i 0) := by
      show ((f.s.table.map (fun i => q.table.getD i 0)).map
        (fun i => (FiniteFunction.universalT q
          (FiniteFunction.coprodT f.H.w g.H.w)).table.getD i 0)) = _
      rw [List.map_map]
      refine List.map_congr_left (fun v hv => ?_)
      have hvW : v < f.H.W := by
        have := hfsb v hv
        omega
      show (FiniteFunction.universalT q
        (FiniteFunction.coprodT f.H.w g.H.w)).table.getD (q.table.getD v 0) 0 =
        f.H.w.table.getD v 0
      rw [hupoint v (by omega)]
      exact List.getD_append _ _ _ _ (by omega)
    show FiniteFunction.compT (FiniteFunction.compT
        (FiniteFunction.inject0 f.s g.H.W) q)
        (FiniteFunction.universalT q (FiniteFunction.coprodT f.H.w g.H.w)) =
      FiniteFunction.compT f.s f.H.w
    unfold FiniteFunction.compT
    dsimp only
    simp only [FiniteFunction.mk.injEq]
    exact ⟨htabS, rfl, rfl⟩
  have htgt2 : OpenHypergraph.target (OpenHypergraph.composeV f g q) =
      OpenHypergraph.target g := by
    have htabT : ((FiniteFunction.inject1 g.t f.H.W).table.map
        (fun i => q.table.getD i 0)).map
        (fun i => (FiniteFunction.universalT q
          (FiniteFunction.coprodT f.H.w g.H.w)).table.getD i 0) =
        g.t.table.map (fun i => g.H.w.table.getD i 0) := by
      show (((g.t.table.map (fun v => f.H.W + v)).map
        (fun i => q.table.getD i 0)).map
        (fun i => (FiniteFunction.universalT q
          (FiniteFunction.coprodT f.H.w g.H.w)).table.getD i 0)) = _
      rw [List.map_map, List.map_map]
      refine List.map_congr_left (fun v hv => ?_)
      have hvW : v < g.H.W := by
        have := hgtb v hv
        omega
      show (FiniteFunction.universalT q
        (FiniteFunction.coprodT f.H.w g.H.w)).table.getD
          (q.table.getD (f.H.W + v) 0) 0 = g.H.w.table.getD v 0
      rw [hupoint (f.H.W + v) (by omega)]
      have h3 := List.getD_append_right f.H.w.table g.H.w.table 0 (f.H.W + v)
        (by omega)
      rw [show f.H.W + v - f.H.w.table.length = v from by omega] at h3
      exact h3
    show FiniteFunction.compT (FiniteFunction.compT
        (FiniteFunction.inject1 g.t f.H.W) q)
        (FiniteFunction.universalT q (FiniteFunction.coprodT f.H.w g.H.w)) =
      FiniteFunction.compT g.t g.H.w
    unfold FiniteFunction.compT
    dsimp only
    simp only [FiniteFunction.mk.injEq]
    exact ⟨htabT, htt, rfl⟩
  refine ⟨⟨c1, c2, c3, c4, htgt.symm, ?_, d1, d2, d3, d4, d5, d6, d7, d8, d9, d10,
    ?_, ?_, ?_⟩, hsrc, htgt2⟩
  · show g.t.dtype = f.H.w.dtype
    exact htgt.trans (hfd1.trans hfd2)
  · show f.H.s.values.dtype = f.H.w.dtype
    exact hfd3
  · show f.H.t.values.dtype = f.H.w.dtype
    exact hfd4
  · show f.H.x.dtype = f.H.w.dtype
    exact hfd5

theorem compose_main_aux (f g : OpenHypergraph) (q : FiniteFunction)
    (wff : f.Wf) (wfg : g.Wf)
    (ht : OpenHypergraph.target f = OpenHypergraph.source g)
    (hx : f.H.x.target = g.H.x.target)
    (hq : FiniteFunction.coequalizer (FiniteFunction.inject0 f.t g.H.W)
      (FiniteFunction.inject1 g.s f.H.W) = .ok q)
    (hdq : q.dtype = f.t.dtype)
    (hqtablen : q.table.length = f.H.W + g.H.W)
    (hqbound : ∀ i, i < f.H.W + g.H.W → q.table.getD i 0 < q.target)
    (hqocc : ∀ c, c < q.target → c ∈ q.table)
    (huniv : FiniteFunction.compT q (FiniteFunction.universalT q
        (FiniteFunction.coprodT f.H.w g.H.w)) =
      FiniteFunction.coprodT f.H.w g.H.w) :
    OpenHypergraph.compose f g = .ok (OpenHypergraph.composeV f g q) ∧
    (OpenHypergraph.composeV f g q).Wf ∧
    OpenHypergraph.source (OpenHypergraph.composeV f g q) =
      OpenHypergraph.source f ∧
    OpenHypergraph.target (OpenHypergraph.composeV f g q) =
      OpenHypergraph.target g := by
  have wff' := wff
  have wfg' := wfg
  obtain ⟨hfs, hft, hfsb, hftb, hfd1, hfd2, hfH⟩ := wff'
  obtain ⟨hfsw, hftw, hfsv, hftv, hfsvb, hftvb, hfwb, hfxb, hfsl, hftl, hfd3, hfd4,
    hfd5⟩ := hfH
  obtain ⟨hgs, hgt, hgsb, hgtb, hgd1, hgd2, hgH⟩ := wfg'
  obtain ⟨hgsw, hgtw, hgsv, hgtv, hgsvb, hgtvb, hgwb, hgxb, hgsl, hgtl, hgd3, hgd4,
    hgd5⟩ := hgH
  have htt : f.H.w.target = g.H.w.target := by
    have h := congrArg FiniteFunction.target ht
    exact h
  have htd : f.t.dtype = g.s.dtype := by
    have h := congrArg FiniteFunction.dtype ht
    exact h
  have dft : f.t.dtype = f.s.dtype := hfd1.symm
  have dgs : g.s.dtype = f.s.dtype := htd.symm.trans dft
  have dgt : g.t.dtype = f.s.dtype := hgd1.symm.trans dgs
  have dfH : f.H.dtype = f.s.dtype := hfd2.symm.trans dft
  have hupoint : ∀ v, v < f.H.W + g.H.W →
      (FiniteFunction.universalT q (FiniteFunction.coprodT f.H.w g.H.w)).table.getD
        (q.table.getD v 0) 0 =
        (FiniteFunction.coprodT f.H.w g.H.w).table.getD v 0 := by
    intro v hv
    have hcg := congrArg (fun l => l.getD v 0) (congrArg FiniteFunction.table huniv)
    simp only [FiniteFunction.compT] at hcg
    rw [getD_map_lt _ (by omega) 0] at hcg
    exact hcg
  have spec := composeV_spec f g q wff wfg htt hx dgt hqtablen hqbound hqocc hupoint
  refine ⟨?_, spec.1, spec.2.1, spec.2.2⟩
  have e1 := tensor_eval f g wff wfg (dgs.symm) htt hx
  have hqs : q.source = f.H.W + g.H.W := hqtablen
  have e3 : FiniteFunction.comp (FiniteFunction.inject0 f.s g.H.W) q =
      .ok (FiniteFunction.compT (FiniteFunction.inject0 f.s g.H.W) q) :=
    FiniteFunction.comp_eq_ok (hfd1.trans hdq.symm)
      (by show f.s.target + g.H.W = q.source; omega)
  have e4 : FiniteFunction.comp (FiniteFunction.inject1 g.t f.H.W) q =
      .ok (FiniteFunction.compT (FiniteFunction.inject1 g.t f.H.W) q) :=
    FiniteFunction.comp_eq_ok ((dgt.trans dft.symm).trans hdq.symm)
      (by show f.H.W + g.t.target = q.source; omega)
  have e5 : Hypergraph.coequalize_vertices (OpenHypergraph.tensorU f g).H q =
      .ok ⟨⟨(OpenHypergraph.tensorU f g).H.s.sources,
            FiniteFunction.compT (OpenHypergraph.tensorU f g).H.s.values q⟩,
           ⟨(OpenHypergraph.tensorU f g).H.t.sources,
            FiniteFunction.compT (OpenHypergraph.tensorU f g).H.t.values q⟩,
           FiniteFunction.universalT q (OpenHypergraph.tensorU f g).H.w,
           (OpenHypergraph.tensorU f g).H.x⟩ :=
    coequalize_vertices_eq_ok
      (by show (f.H.w.table ++ g.H.w.table).length = q.source
          rw [List.length_append]
          have hW1 : f.H.W = f.H.w.table.length := rfl
          have hW2 : g.H.W = g.H.w.table.length := rfl
          omega)
      huniv
      (by show f.H.s.values.dtype = q.dtype
          exact (hfd3.trans hfd2.symm).trans hdq.symm)
      (by show f.H.s.values.target + g.H.s.values.target = q.source
          omega)
      (by show f.H.t.values.dtype = q.dtype
          exact (hfd4.trans hfd2.symm).trans hdq.symm)
      (by show f.H.t.values.target + g.H.t.values.target = q.source
          omega)
  unfold OpenHypergraph.compose
  rw [if_neg (by simp [ht]), e1, bindOk, hq, bindOk, e3, bindOk, e4, bindOk, e5,
    bindOk]
  rw [mk?_eq_ok (by show f.s.dtype = g.t.dtype; exact dgt.symm)
    (by show g.t.dtype = f.H.w.dtype; exact dgt.trans (hfd1.trans hfd2))]
  rfl

theorem compose_main (f g : OpenHypergraph) (wff : f.Wf) (wfg : g.Wf)
    (ht : OpenHypergraph.target f = OpenHypergraph.source g)
    (hx : f.H.x.target = g.H.x.target) :
    OpenHypergraph.compose f g =
      .ok (OpenHypergraph.composeV f g
        (FiniteFunction.coeqT (FiniteFunction.inject0 f.t g.H.W)
          (FiniteFunction.inject1 g.s f.H.W))) ∧
    (OpenHypergraph.composeV f g
      (FiniteFunction.coeqT (FiniteFunction.inject0 f.t g.H.W)
        (FiniteFunction.inject1 g.s f.H.W))).Wf ∧
    OpenHypergraph.source (OpenHypergraph.composeV f g
      (FiniteFunction.coeqT (FiniteFunction.inject0 f.t g.H.W)
        (FiniteFunction.inject1 g.s f.H.W))) = OpenHypergraph.source f ∧
    OpenHypergraph.target (OpenHypergraph.composeV f g
      (FiniteFunction.coeqT (FiniteFunction.inject0 f.t g.H.W)
        (FiniteFunction.inject1 g.s f.H.W))) = OpenHypergraph.target g := by
  have wff' := wff
  have wfg' := wfg
  obtain ⟨hfs, hft, hfsb, hftb, hfd1, hfd2, hfH⟩ := wff'
  obtain ⟨-, -, -, -, -, -, hfwb, -, -, -, -, -, -⟩ := hfH
  obtain ⟨hgs, hgt, hgsb, hgtb, hgd1, hgd2, hgH⟩ := wfg'
  obtain ⟨-, -, -, -, -, -, hgwb, -, -, -, -, -, -⟩ := hgH
  have htd : f.t.dtype = g.s.dtype := by
    have h := congrArg FiniteFunction.dtype ht
    exact h
  have httab : f.t.table.map (fun i => f.H.w.table.getD i 0) =
      g.s.table.map (fun i => g.H.w.table.getD i 0) := by
    have h := congrArg FiniteFunction.table ht
    exact h
  have htlen : f.t.table.length = g.s.table.length := by
    have := congrArg List.length httab
    simpa using this
  have hpairs := compose_pairs f g hft hgs hftb hgsb httab
  have inv := labInv_coeqLabels hpairs
  have haB : (FiniteFunction.inject0 f.t g.H.W).Bounded := by
    intro v hv
    have := hftb v hv
    show v < f.t.target + g.H.W
    omega
  have hbB : (FiniteFunction.inject1 g.s f.H.W).Bounded := by
    intro v hv
    obtain ⟨v0, hv0, rfl⟩ := List.mem_map.mp hv
    have := hgsb v0 hv0
    show f.H.W + v0 < f.H.W + g.s.target
    omega
  have hq : FiniteFunction.coequalizer (FiniteFunction.inject0 f.t g.H.W)
      (FiniteFunction.inject1 g.s f.H.W) =
      .ok (FiniteFunction.coeqT (FiniteFunction.inject0 f.t g.H.W)
        (FiniteFunction.inject1 g.s f.H.W)) :=
    coequalizer_eq_ok htd
      (by show f.t.table.length = (g.s.table.map _).length
          rw [List.length_map]
          exact htlen)
      (by show f.t.target + g.H.W = f.H.W + g.s.target
          omega)
      haB hbB
  have hqtablen : (FiniteFunction.coeqT (FiniteFunction.inject0 f.t g.H.W)
      (FiniteFunction.inject1 g.s f.H.W)).table.length = f.H.W + g.H.W := by
    rw [coeqT_table_length]
    show f.t.target + g.H.W = f.H.W + g.H.W
    omega
  have hqbound : ∀ i, i < f.H.W + g.H.W →
      (FiniteFunction.coeqT (FiniteFunction.inject0 f.t g.H.W)
        (FiniteFunction.inject1 g.s f.H.W)).table.getD i 0 <
      (FiniteFunction.coeqT (FiniteFunction.inject0 f.t g.H.W)
        (FiniteFunction.inject1 g.s f.H.W)).target := by
    intro i hi
    exact coeqT_getD_lt inv (show i < f.t.target + g.H.W by omega)
  have hqocc : ∀ c, c < (FiniteFunction.coeqT (FiniteFunction.inject0 f.t g.H.W)
      (FiniteFunction.inject1 g.s f.H.W)).target →
      c ∈ (FiniteFunction.coeqT (FiniteFunction.inject0 f.t g.H.W)
        (FiniteFunction.inject1 g.s f.H.W)).table :=
    fun c hc => coeqT_target_mem _ _ hc
  have huniv := coeq_universal (FiniteFunction.inject0 f.t g.H.W)
    (FiniteFunction.inject1 g.s f.H.W) (FiniteFunction.coprodT f.H.w g.H.w)
    (by show (f.H.w.table ++ g.H.w.table).length = f.t.target + g.H.W
        rw [List.length_append]
        have hW1 : f.H.W = f.H.w.table.length := rfl
        have hW2 : g.H.W = g.H.w.table.length := rfl
        omega)
    (by show f.t.dtype = f.H.w.dtype
        exact hfd2)
    hpairs
  exact compose_main_aux f g _ wff wfg ht hx hq rfl hqtablen hqbound hqocc huniv

theorem compose_xfail (f g : OpenHypergraph) (wff : f.Wf) (wfg : g.Wf)
    (ht : OpenHypergraph.target f = OpenHypergraph.source g)
    (hx : f.H.x.target ≠ g.H.x.target) :
    OpenHypergraph.compose f g = .error .typeMismatch := by
  obtain ⟨hfs, hft, hfsb, hftb, hfd1, hfd2, hfH⟩ := wff
  obtain ⟨hfsw, hftw, hfsv, hftv, hfsvb, hftvb, hfwb, hfxb, hfsl, hftl, hfd3, hfd4,
    hfd5⟩ := hfH
  obtain ⟨hgs, hgt, hgsb, hgtb, hgd1, hgd2, hgH⟩ := wfg
  obtain ⟨hgsw, hgtw, hgsv, hgtv, hgsvb, hgtvb, hgwb, hgxb, hgsl, hgtl, hgd3, hgd4,
    hgd5⟩ := hgH
  have htd : f.t.dtype = g.s.dtype := by
    have h := congrArg FiniteFunction.dtype ht
    exact h
  have htt : f.H.w.target = g.H.w.target := by
    have h := congrArg FiniteFunction.target ht
    exact h
  have dft : f.t.dtype = f.s.dtype := hfd1.symm
  have dgs : g.s.dtype = f.s.dtype := htd.symm.trans dft
  have dgt : g.t.dtype = f.s.dtype := hgd1.symm.trans dgs
  have dfH : f.H.dtype = f.s.dtype := hfd2.symm.trans dft
  have dgH : g.H.dtype = f.s.dtype := hgd2.symm.trans dgt
  have e1 : FiniteFunction.tensor f.s g.s = .ok (FiniteFunction.tensorT f.s g.s) :=
    FiniteFunction.tensor_eq_ok dgs.symm
  have e2 : FiniteFunction.tensor f.t g.t = .ok (FiniteFunction.tensorT f.t g.t) :=
    FiniteFunction.tensor_eq_ok (dft.trans dgt.symm)
  have e3 : IndexedCoproduct.tensorIC f.H.s g.H.s =
      .ok ⟨f.H.s.sources ++ g.H.s.sources,
           FiniteFunction.tensorT f.H.s.values g.H.s.values⟩ := by
    unfold IndexedCoproduct.tensorIC
    rw [FiniteFunction.tensor_eq_ok ((hfd3.trans dfH).trans (hgd3.trans dgH).symm),
      bindOk]
  have e4 : IndexedCoproduct.tensorIC f.H.t g.H.t =
      .ok ⟨f.H.t.sources ++ g.H.t.sources,
           FiniteFunction.tensorT f.H.t.values g.H.t.values⟩ := by
    unfold IndexedCoproduct.tensorIC
    rw [FiniteFunction.tensor_eq_ok ((hfd4.trans dfH).trans (hgd4.trans dgH).symm),
      bindOk]
  have e5 : FiniteFunction.coprod f.H.w g.H.w =
      .ok (FiniteFunction.coprodT f.H.w g.H.w) :=
    FiniteFunction.coprod_eq_ok (dfH.trans dgH.symm) htt
  have e6 : FiniteFunction.coprod f.H.x g.H.x = .error .typeMismatch := by
    unfold FiniteFunction.coprod
    rw [if_neg (by simp [(hfd5.trans dfH).trans (hgd5.trans dgH).symm]), if_pos hx]
  have eadd : Hypergraph.add f.H g.H = .error .typeMismatch := by
    unfold Hypergraph.add
    rw [e3, bindOk, e4, bindOk, e5, bindOk, e6, bindErr]
  have et : OpenHypergraph.tensor f g = .error .typeMismatch := by
    unfold OpenHypergraph.tensor
    rw [e1, bindOk, e2, bindOk, eadd, bindErr]
  unfold OpenHypergraph.compose
  rw [if_neg (by simp [ht]), et, bindErr]

/-! ### C1, C2: compose -/

/-- C1: for every pair of well-formed open hypergraphs with
`f.target == g.source`, the composite `h = f >> g` satisfies
`h.source == f.source` and `h.target == g.target`. -/
theorem compose_signature (f g h : OpenHypergraph) (wff : f.Wf) (wfg : g.Wf)
    (ht : OpenHypergraph.target f = OpenHypergraph.source g)
    (hc : OpenHypergraph.compose f g = .ok h) :
    OpenHypergraph.source h = OpenHypergraph.source f ∧
    OpenHypergraph.target h = OpenHypergraph.target g := by
  by_cases hx : f.H.x.target = g.H.x.target
  · obtain ⟨hok, -, hs, htg⟩ := compose_main f g wff wfg ht hx
    rw [hok] at hc
    obtain rfl := Except.ok.inj hc
    exact ⟨hs, htg⟩
  · rw [compose_xfail f g wff wfg ht hx] at hc
    exact absurd hc (by simp)

theorem compose_signature_witness :
    OpenHypergraph.source idOH = OpenHypergraph.source idOH ∧
    OpenHypergraph.target idOH = OpenHypergraph.target idOH :=
  compose_signature idOH idOH idOH (by decide) (by decide) (by decide) (by decide)

/-- C2 counterexample: two well-formed open hypergraphs with
`f.target == g.source` but distinct operation alphabets: compose fails
instead of succeeding, refuting the claim's success half as stated. -/
theorem compose_success_cx :
    idOH.Wf ∧ idOHx1.Wf ∧
    OpenHypergraph.target idOH = OpenHypergraph.source idOHx1 ∧
    OpenHypergraph.compose idOH idOHx1 = .error .typeMismatch := by
  decide

/-- C2 (amended): for well-formed open hypergraphs whose operation
alphabets agree, compose fails with the type-mismatch error whenever
`f.target != g.source` (never silently producing a result), and succeeds
with a well-formed open hypergraph when `f.target == g.source`. -/
theorem compose_typecheck (f g : OpenHypergraph) (wff : f.Wf) (wfg : g.Wf)
    (hx : f.H.x.target = g.H.x.target) :
    (OpenHypergraph.target f ≠ OpenHypergraph.source g →
      OpenHypergraph.compose f g = .error .typeMismatch) ∧
    (OpenHypergraph.target f = OpenHypergraph.source g →
      ∃ h, OpenHypergraph.compose f g = .ok h ∧ h.Wf) := by
  constructor
  · intro hne
    unfold OpenHypergraph.compose
    rw [if_pos hne]
  · intro ht
    obtain ⟨hok, hwf, -, -⟩ := compose_main f g wff wfg ht hx
    exact ⟨_, hok, hwf⟩

theorem compose_typecheck_witness :
    (OpenHypergraph.target idOH ≠ OpenHypergraph.source idOH →
      OpenHypergraph.compose idOH idOH = .error .typeMismatch) ∧
    (OpenHypergraph.target idOH = OpenHypergraph.source idOH →
      ∃ h, OpenHypergraph.compose idOH idOH = .ok h ∧ h.Wf) :=
  compose_typecheck idOH idOH (by decide) (by decide) (by decide)

end OpenHG
